import Mathlib

/-!
Verification of the core of the PaulStretch audio processor
(josephvolmer/paulstretch).

The JavaScript source stores a complex array as two parallel
`Float32Array`s `real` / `imag`; here each such pair is modelled as one
array of complex numbers, a function `ℕ → ℂ` (entries at indices at or
beyond the array length are never read or written by the embedded code).
Floating-point arithmetic is modelled by exact real arithmetic, machine
integers by `ℕ` / `ℤ`.
-/

open Complex Finset

/-- Bit reversal of the `t` lowest bits of `i`: the permutation computed by
the first loop of `FFT.forward` in `src/index.js` (specification value used
to verify that loop, not code from the source). -/
def revT : ℕ → ℕ → ℕ
  | 0, _ => 0
  | t + 1, i => 2 ^ t * (i % 2) + revT t (i / 2)

/-- Embedding of the inner `while (k <= j) { j -= k; k >>= 1 }; j += k` of
the bit-reversal loop in `FFT.forward` (`src/index.js` lines 20-25).  For
`k = 0` the JS loop would not terminate; that state is unreachable because
`k` starts at `n >> 1 ≥ 1` and on the reachable states (`j` a bit-reversed
counter that does not overflow) the loop exits while `k ≥ 1`. -/
def bitrevCarry (j k : ℕ) : ℕ :=
  if h : 0 < k ∧ k ≤ j then bitrevCarry (j - k) (k / 2) else j + k
termination_by k
decreasing_by exact Nat.div_lt_self h.1 one_lt_two

/-- Embedding of the in-place swap
`[real[i], real[j]] = [real[j], real[i]]` (and the same for `imag`) from
`FFT.forward`. -/
def aswap (a : ℕ → ℂ) (i j : ℕ) : ℕ → ℂ :=
  fun p => if p = i then a j else if p = j then a i else a p

/-- One iteration of the bit-reversal `for` loop of `FFT.forward`
(`src/index.js` lines 14-26): conditionally swap `a[i]` with `a[j]`, then
advance `j` starting from `k = n >> 1`. -/
def bitrevStep (n : ℕ) (s : (ℕ → ℂ) × ℕ) (i : ℕ) : (ℕ → ℂ) × ℕ :=
  ((if i < s.2 then aswap s.1 i s.2 else s.1), bitrevCarry s.2 (n / 2))

/-- Embedding of the whole bit-reversal phase of `FFT.forward`: the loop
`for (let i = 0; i < n - 1; i++)` starting from `j = 0`. -/
def bitrevPass (n : ℕ) (a : ℕ → ℂ) : ℕ → ℂ :=
  ((List.range (n - 1)).foldl (bitrevStep n) (a, 0)).1

/-- Twiddle factor `cos θ + i·sin θ` for `θ = angleStep · j = -2π·j/len`,
exactly as computed in the butterfly loop of `FFT.forward`
(`src/index.js` lines 38-40). -/
noncomputable def tw (len j : ℕ) : ℂ :=
  Complex.exp ((((-2) * Real.pi / len * j : ℝ) : ℂ) * Complex.I)

/-- One butterfly of `FFT.forward` (`src/index.js` lines 42-48): with `m`
and `m + half` the two indices and `t = a[m+half]·(cos θ + i·sin θ)`, the
body sets `a[m+half] = a[m] - t` and then `a[m] = a[m] + t`. -/
noncomputable def bfly (half len m j : ℕ) (a : ℕ → ℂ) : ℕ → ℂ :=
  fun p =>
    if p = m + half then a m - a (m + half) * tw len j
    else if p = m then a m + a (m + half) * tw len j
    else a p

/-- One pass (one value of `len`) of the Cooley–Tukey loop of
`FFT.forward`: the outer loop visits the blocks `i = len·q`, the inner
loop the butterflies `j < len/2` inside a block.  The source loop
`for (i = 0; i < n; i += len)` makes `n/len` iterations (`len` divides `n`
on every reachable call, `n` being a power of two). -/
noncomputable def fftStage (n len : ℕ) (a : ℕ → ℂ) : ℕ → ℂ :=
  (List.range (n / len)).foldl
    (fun b q =>
      (List.range (len / 2)).foldl (fun c j => bfly (len / 2) len (len * q + j) j c) b) a

/-- Embedding of the `while (len <= n)` doubling loop of `FFT.forward`.
The extra guard `0 < len` only makes the recursion well-founded: `len`
starts at 2 and doubles, so the guard holds on every reachable call. -/
noncomputable def fftLoop (n len : ℕ) (a : ℕ → ℂ) : ℕ → ℂ :=
  if h : 0 < len ∧ len ≤ n then fftLoop n (2 * len) (fftStage n len a) else a
termination_by n + 1 - len
decreasing_by omega

/-- Embedding of `FFT.forward` from `src/index.js` (lines 10-53):
bit-reversal permutation followed by the butterfly passes
`len = 2, 4, …`. -/
noncomputable def fftForward (n : ℕ) (a : ℕ → ℂ) : ℕ → ℂ :=
  fftLoop n 2 (bitrevPass n a)

/-- Embedding of `FFT.inverse` from `src/index.js` (lines 55-69):
negate `imag[i]` (conjugation), run `forward`, then
`real[i] *= 1/size; imag[i] *= -1/size` (conjugate and scale by `1/n`),
each loop running over `i < n`. -/
noncomputable def fftInverse (n : ℕ) (a : ℕ → ℂ) : ℕ → ℂ :=
  let c := fun p => if p < n then (starRingEnd ℂ) (a p) else a p
  let f := fftForward n c
  fun p => if p < n then ((1 : ℂ) / n) * (starRingEnd ℂ) (f p) else f p

/-- Discrete Fourier transform `X[k] = Σₙ x[n]·e^(-2πi·k·n/N)`, the
specification value the spec ascribes to `FFT.forward`. -/
noncomputable def dft (N : ℕ) (x : ℕ → ℂ) (k : ℕ) : ℂ :=
  ∑ m ∈ Finset.range N, x m * Complex.exp ((((-2) * Real.pi * k * m / N : ℝ) : ℂ) * Complex.I)

lemma revT_lt (t : ℕ) : ∀ i, revT t i < 2 ^ t := by
  induction t with
  | zero => intro i; simp [revT]
  | succ t ih =>
    intro i
    have h1 : i % 2 ≤ 1 := Nat.le_of_lt_succ (Nat.mod_lt _ two_pos)
    have h2 := ih (i / 2)
    have h3 : 2 ^ t * (i % 2) ≤ 2 ^ t * 1 := Nat.mul_le_mul_left _ h1
    simp only [revT, pow_succ]
    omega

lemma revT_zero (t : ℕ) : revT t 0 = 0 := by
  induction t with
  | zero => rfl
  | succ t ih => simp [revT, ih]

/-- Peeling the high bit instead of the low bit from the reversal. -/
lemma revT_high (t : ℕ) : ∀ i, i < 2 ^ (t + 1) →
    revT (t + 1) i = 2 * revT t (i % 2 ^ t) + i / 2 ^ t := by
  induction t with
  | zero =>
    intro i hi
    interval_cases i <;> rfl
  | succ t ih =>
    intro i hi
    have hdiv : i / 2 < 2 ^ (t + 1) := by
      have : (2:ℕ) ^ (t + 2) = 2 ^ (t+1) * 2 := by ring
      omega
    have e1 : i % 2 ^ (t + 1) % 2 = i % 2 :=
      Nat.mod_mod_of_dvd i (dvd_pow_self 2 (Nat.succ_ne_zero t))
    have e2 : i % 2 ^ (t + 1) / 2 = i / 2 % 2 ^ t := by
      have : (2:ℕ) ^ (t + 1) = 2 * 2 ^ t := by ring
      rw [this, Nat.mod_mul_right_div_self]
    have e3 : i / 2 / 2 ^ t = i / 2 ^ (t + 1) := by
      rw [Nat.div_div_eq_div_mul]
      congr 1
      ring
    have lhs : revT (t + 2) i = 2 ^ (t + 1) * (i % 2) + revT (t + 1) (i / 2) := rfl
    rw [lhs, ih (i / 2) hdiv, e3]
    have rhs : revT (t + 1) (i % 2 ^ (t + 1)) =
        2 ^ t * (i % 2 ^ (t + 1) % 2) + revT t (i % 2 ^ (t + 1) / 2) := rfl
    rw [rhs, e1, e2]
    ring

lemma revT_revT (t : ℕ) : ∀ i, i < 2 ^ t → revT t (revT t i) = i := by
  induction t with
  | zero => intro i hi; interval_cases i; rfl
  | succ t ih =>
    intro i hi
    have hr : revT t (i / 2) < 2 ^ t := revT_lt t _
    have hb : i % 2 ≤ 1 := Nat.le_of_lt_succ (Nat.mod_lt _ two_pos)
    have hlt : 2 ^ t * (i % 2) + revT t (i / 2) < 2 ^ (t + 1) := revT_lt (t + 1) i
    have h1 : revT (t + 1) i = 2 ^ t * (i % 2) + revT t (i / 2) := rfl
    rw [h1, revT_high t _ (h1 ▸ hlt)]
    have e1 : (2 ^ t * (i % 2) + revT t (i / 2)) % 2 ^ t = revT t (i / 2) := by
      rw [Nat.mul_add_mod]
      exact Nat.mod_eq_of_lt hr
    have e2 : (2 ^ t * (i % 2) + revT t (i / 2)) / 2 ^ t = i % 2 := by
      rw [Nat.mul_add_div (Nat.pos_pow_of_pos t two_pos)]
      rw [Nat.div_eq_of_lt hr]
      omega
    rw [e1, e2]
    have hdiv : i / 2 < 2 ^ t := by
      have : (2:ℕ) ^ (t + 1) = 2 ^ t * 2 := by ring
      omega
    rw [ih (i / 2) hdiv]
    omega

lemma revT_all_ones (t : ℕ) : revT t (2 ^ t - 1) = 2 ^ t - 1 := by
  induction t with
  | zero => rfl
  | succ t ih =>
    have h2 : (2:ℕ) ^ (t + 1) = 2 ^ t * 2 := by ring
    have hpos : 0 < (2:ℕ) ^ t := Nat.pos_pow_of_pos t two_pos
    have hmod : (2 ^ (t + 1) - 1) % 2 = 1 := by omega
    have hdiv : (2 ^ (t + 1) - 1) / 2 = 2 ^ t - 1 := by omega
    have h1 : revT (t + 1) (2 ^ (t + 1) - 1) =
        2 ^ t * ((2 ^ (t + 1) - 1) % 2) + revT t ((2 ^ (t + 1) - 1) / 2) := rfl
    rw [h1, hmod, hdiv, ih]
    omega

/-- Advancing the bit-reversed counter: one execution of the inner `while`
of the bit-reversal loop turns `rev t i` into `rev t (i+1)`. -/
lemma bitrevCarry_rev (t : ℕ) : ∀ i, i + 1 < 2 ^ t →
    bitrevCarry (revT t i) (2 ^ t / 2) = revT t (i + 1) := by
  induction t with
  | zero => intro i hi; omega
  | succ t ih =>
    intro i hi
    have hpos : 0 < (2:ℕ) ^ t := Nat.pos_pow_of_pos t two_pos
    have hk : 2 ^ (t + 1) / 2 = 2 ^ t := by
      have : (2:ℕ) ^ (t + 1) = 2 ^ t * 2 := by ring
      omega
    have hr : revT t (i / 2) < 2 ^ t := revT_lt t _
    have hstep : revT (t + 1) i = 2 ^ t * (i % 2) + revT t (i / 2) := rfl
    have hstep' : revT (t + 1) (i + 1) = 2 ^ t * ((i + 1) % 2) + revT t ((i + 1) / 2) := rfl
    rcases Nat.mod_two_eq_zero_or_one i with he | ho
    · -- even case: the while loop does not run
      have hm1 : (i + 1) % 2 = 1 := by omega
      have hd1 : (i + 1) / 2 = i / 2 := by omega
      rw [hk, hstep, he, hstep', hm1, hd1]
      rw [bitrevCarry]
      simp only [mul_zero, zero_add]
      rw [dif_neg (by omega)]
      omega
    · -- odd case: strip the leading reversed bit and recurse
      have hm1 : (i + 1) % 2 = 0 := by omega
      have hd1 : (i + 1) / 2 = i / 2 + 1 := by omega
      have hrec : i / 2 + 1 < 2 ^ t := by
        have h2 : (2:ℕ) ^ (t + 1) = 2 ^ t * 2 := by ring
        omega
      rw [hk, hstep, ho, hstep', hm1, hd1]
      rw [bitrevCarry]
      rw [dif_pos ⟨hpos, by omega⟩]
      simp only [mul_one]
      have harg : 2 ^ t + revT t (i / 2) - 2 ^ t = revT t (i / 2) := by omega
      rw [harg]
      rw [ih (i / 2) hrec]
      omega

/-- Permutation realised by the swap loop after processing the iterations
`i < m`: each pair `{p, rev p}` whose smaller element has been visited is
already swapped. -/
def revPartial (t m p : ℕ) : ℕ :=
  if p < 2 ^ t ∧ (p < m ∨ revT t p < m) then revT t p else p

lemma revPartial_rev (t m p : ℕ) (h1 : p < 2 ^ t) (h2 : p < m ∨ revT t p < m) :
    revPartial t m p = revT t p := by
  unfold revPartial
  rw [if_pos ⟨h1, h2⟩]

lemma revPartial_id (t m p : ℕ) (h : ¬(p < 2 ^ t ∧ (p < m ∨ revT t p < m))) :
    revPartial t m p = p := by
  unfold revPartial
  rw [if_neg h]

lemma bitrevFold_inv (t : ℕ) (a : ℕ → ℂ) :
    ∀ m, m < 2 ^ t →
      (List.range m).foldl (bitrevStep (2 ^ t)) (a, 0) =
        (fun p => a (revPartial t m p), revT t m) := by
  intro m
  induction m with
  | zero =>
    intro _
    simp only [List.range_zero, List.foldl_nil, revT_zero]
    refine Prod.ext ?_ rfl
    funext p
    simp [revPartial]
  | succ m ih =>
    intro hm
    have hm' : m < 2 ^ t := by omega
    rw [List.range_succ, List.foldl_append, List.foldl_cons, List.foldl_nil, ih hm']
    have hk : bitrevCarry (revT t m) (2 ^ t / 2) = revT t (m + 1) := bitrevCarry_rev t m hm
    have hrm : revT t m < 2 ^ t := revT_lt t m
    have hrr : revT t (revT t m) = m := revT_revT t m hm'
    have hstep : bitrevStep (2 ^ t) (fun p => a (revPartial t m p), revT t m) m =
        ((if m < revT t m then aswap (fun p => a (revPartial t m p)) m (revT t m)
          else fun p => a (revPartial t m p)), revT t (m + 1)) := by
      simp [bitrevStep, hk]
    rw [hstep]
    congr 1
    by_cases hsw : m < revT t m
    · rw [if_pos hsw]
      funext p
      by_cases hpm : p = m
      · have e1 : aswap (fun q => a (revPartial t m q)) m (revT t m) p =
            a (revPartial t m (revT t m)) := by
          simp only [aswap, if_pos hpm]
        have e2 : revPartial t m (revT t m) = revT t m :=
          revPartial_id t m _ (by intro ⟨_, h⟩; omega)
        have e3 : revPartial t (m + 1) p = revT t m := by
          rw [hpm]
          exact revPartial_rev t (m + 1) m hm' (Or.inl (by omega))
        rw [e1, e2, e3]
      · by_cases hpj : p = revT t m
        · have e1 : aswap (fun q => a (revPartial t m q)) m (revT t m) p =
              a (revPartial t m m) := by
            simp only [aswap, if_neg hpm, if_pos hpj]
          have e2 : revPartial t m m = m :=
            revPartial_id t m m (by intro ⟨_, h⟩; omega)
          have e3 : revPartial t (m + 1) p = m := by
            rw [hpj, revPartial_rev t (m + 1) _ hrm (Or.inr (by omega)), hrr]
          rw [e1, e2, e3]
        · have e1 : aswap (fun q => a (revPartial t m q)) m (revT t m) p =
              a (revPartial t m p) := by
            simp only [aswap, if_neg hpm, if_neg hpj]
          rw [e1]
          congr 1
          by_cases hp : p < 2 ^ t
          · have hne : revT t p ≠ m := by
              intro he
              exact hpj (by rw [← revT_revT t p hp, he])
            by_cases hc : p < m ∨ revT t p < m
            · rw [revPartial_rev t m p hp hc, revPartial_rev t (m + 1) p hp (by omega)]
            · rw [revPartial_id t m p (by tauto),
                  revPartial_id t (m + 1) p (by intro ⟨_, h⟩; omega)]
          · rw [revPartial_id t m p (by tauto), revPartial_id t (m + 1) p (by tauto)]
    · rw [if_neg hsw]
      funext p
      congr 1
      by_cases hp : p < 2 ^ t
      · by_cases hc : p < m ∨ revT t p < m
        · rw [revPartial_rev t m p hp hc, revPartial_rev t (m + 1) p hp (by omega)]
        · by_cases hpm : p = m
          · have h1 : revT t p = p := by
              have : revT t p = revT t m := by rw [hpm]
              omega
            rw [revPartial_id t m p (by tauto),
                revPartial_rev t (m + 1) p hp (Or.inl (by omega)), h1]
          · by_cases hrev : revT t p = m
            · exfalso
              have hpe : p = revT t m := by rw [← revT_revT t p hp, hrev]
              omega
            · rw [revPartial_id t m p (by tauto),
                  revPartial_id t (m + 1) p (by intro ⟨_, h⟩; omega)]
      · rw [revPartial_id t m p (by tauto), revPartial_id t (m + 1) p (by tauto)]

/-- The bit-reversal phase of `FFT.forward` permutes the first `2^t`
entries by bit reversal and leaves the rest untouched. -/
lemma bitrevPass_eq (t : ℕ) (a : ℕ → ℂ) (p : ℕ) :
    bitrevPass (2 ^ t) a p = if p < 2 ^ t then a (revT t p) else a p := by
  have hpos : 0 < (2:ℕ) ^ t := Nat.pos_pow_of_pos t two_pos
  have hm : 2 ^ t - 1 < 2 ^ t := by omega
  unfold bitrevPass
  rw [bitrevFold_inv t a (2 ^ t - 1) hm]
  show a (revPartial t (2 ^ t - 1) p) = _
  by_cases hp : p < 2 ^ t
  · rw [if_pos hp]
    by_cases hc : p < 2 ^ t - 1 ∨ revT t p < 2 ^ t - 1
    · rw [revPartial_rev t _ p hp hc]
    · have hpe : p = 2 ^ t - 1 := by omega
      have hre : revT t p = p := by rw [hpe]; exact revT_all_ones t
      rw [revPartial_id t _ p (by tauto), hre]
  · rw [if_neg hp, revPartial_id t _ p (by tauto)]

section DisjointFold

variable {ι : Type} (step : ι → (ℕ → ℂ) → (ℕ → ℂ)) (W : ι → ℕ → Prop)

/-- Folding operations that do not write an index leaves that index
unchanged. -/
lemma foldl_no_write
    (h1 : ∀ o a p, ¬ W o p → step o a p = a p) :
    ∀ (ops : List ι) (a : ℕ → ℂ) (p : ℕ), (∀ o ∈ ops, ¬ W o p) →
      (ops.foldl (fun x o => step o x) a) p = a p := by
  intro ops
  induction ops with
  | nil => intro a p _; rfl
  | cons o rest ih =>
    intro a p h
    rw [List.foldl_cons, ih (step o a) p (fun u hu => h u (List.mem_cons_of_mem o hu))]
    exact h1 o a p (h o (List.mem_cons_self o rest))

/-- In a fold of operations with pairwise-disjoint write sets, an index
written by exactly the listed operation `o` ends up with the value `o`
computes from the initial array. -/
lemma foldl_one_write
    (h1 : ∀ o a p, ¬ W o p → step o a p = a p)
    (h2 : ∀ o (a b : ℕ → ℂ), (∀ q, W o q → a q = b q) → ∀ p, W o p → step o a p = step o b p)
    (l₁ l₂ : List ι) (o : ι) (a : ℕ → ℂ) (p : ℕ)
    (hdisj : List.Pairwise (fun u v => ∀ q, W u q → ¬ W v q) (l₁ ++ o :: l₂))
    (hW : W o p) :
    ((l₁ ++ o :: l₂).foldl (fun x u => step u x) a) p = step o a p := by
  rw [List.foldl_append, List.foldl_cons]
  rw [List.pairwise_append] at hdisj
  obtain ⟨hp1, hp2, hp12⟩ := hdisj
  rw [List.pairwise_cons] at hp2
  obtain ⟨ho2, _⟩ := hp2
  have hl2 : ∀ u ∈ l₂, ¬ W u p := fun u hu => ho2 u hu p hW
  rw [foldl_no_write step W h1 l₂ _ p hl2]
  refine h2 o _ a ?_ p hW
  intro q hq
  refine foldl_no_write step W h1 l₁ a q ?_
  intro u hu hWu
  exact hp12 u hu o (List.mem_cons_self o l₂) q hWu hq

end DisjointFold

/-- Flattening a nested fold over two ranges into a fold over the list of
index pairs. -/
lemma nested_foldl_eq {γ : Type} (B : ℕ) (g : ℕ → ℕ → γ → γ) :
    ∀ (l : List ℕ) (c : γ),
      l.foldl (fun b q => (List.range B).foldl (fun x j => g q j x) b) c =
        (l.flatMap (fun q => (List.range B).map (fun j => (q, j)))).foldl
          (fun x u => g u.1 u.2 x) c := by
  intro l
  induction l with
  | nil => intro c; rfl
  | cons q rest ih =>
    intro c
    rw [List.foldl_cons, List.flatMap_cons, List.foldl_append, ih, List.foldl_map]

/-- Pairs `(q, j)` visited by the two butterfly loops of one pass. -/
def stagePairs (nblocks half : ℕ) : List (ℕ × ℕ) :=
  (List.range nblocks).flatMap (fun q => (List.range half).map (fun j => (q, j)))

lemma stagePairs_mem {nblocks half : ℕ} {u : ℕ × ℕ} :
    u ∈ stagePairs nblocks half ↔ u.1 < nblocks ∧ u.2 < half := by
  unfold stagePairs
  rcases u with ⟨q, j⟩
  simp only [List.mem_flatMap, List.mem_map, List.mem_range]
  constructor
  · rintro ⟨q', hq', j', hj', he⟩
    cases he
    exact ⟨hq', hj'⟩
  · rintro ⟨hq, hj⟩
    exact ⟨q, hq, j, hj, rfl⟩

lemma stagePairs_nodup (nblocks half : ℕ) : (stagePairs nblocks half).Nodup := by
  unfold stagePairs
  refine List.nodup_flatMap.2 ⟨?_, ?_⟩
  · intro q _
    refine (List.nodup_range half).map ?_
    intro j j' h
    exact ((Prod.mk.injEq q j q j').mp h).2
  · refine (List.nodup_range nblocks).imp ?_
    intro q q' hne
    intro u hu hu'
    simp only [Function.comp, List.mem_map, List.mem_range] at hu hu'
    obtain ⟨j, _, rfl⟩ := hu
    obtain ⟨j', _, he⟩ := hu'
    exact hne ((Prod.mk.injEq ..).mp he.symm).1

/-- Indices written by the butterfly of pair `(q, j)` in a pass with block
half-width `half`. -/
def bflyWrites (half : ℕ) (u : ℕ × ℕ) (p : ℕ) : Prop :=
  p = 2 * half * u.1 + u.2 ∨ p = 2 * half * u.1 + u.2 + half

lemma slot_inj (half : ℕ) (hh : 0 < half) (q j e q' j' e' : ℕ)
    (hj : j < half) (hj' : j' < half) (he : e ≤ 1) (he' : e' ≤ 1)
    (heq : 2 * half * q + j + e * half = 2 * half * q' + j' + e' * half) :
    q = q' ∧ j = j' ∧ e = e' := by
  have h1 : 2 * half * q + j + e * half = half * (2 * q + e) + j := by ring
  have h2 : 2 * half * q' + j' + e' * half = half * (2 * q' + e') + j' := by ring
  rw [h1, h2] at heq
  have d : 2 * q + e + j / half = 2 * q' + e' + j' / half := by
    have := congrArg (fun v => v / half) heq
    simpa [Nat.mul_add_div hh] using this
  have m : j % half = j' % half := by
    have := congrArg (fun v => v % half) heq
    simpa [Nat.mul_add_mod] using this
  rw [Nat.div_eq_of_lt hj, Nat.div_eq_of_lt hj'] at d
  rw [Nat.mod_eq_of_lt hj, Nat.mod_eq_of_lt hj'] at m
  omega

lemma bflyWrites_disjoint (half : ℕ) (hh : 0 < half) (u v : ℕ × ℕ)
    (hu2 : u.2 < half) (hv2 : v.2 < half) (hne : u ≠ v) :
    ∀ p, bflyWrites half u p → ¬ bflyWrites half v p := by
  intro p hu hv
  unfold bflyWrites at hu hv
  have huv : u = v := by
    rcases hu with rfl | rfl <;> rcases hv with he | he
    · have h0 : 2 * half * u.1 + u.2 + 0 * half = 2 * half * v.1 + v.2 + 0 * half := by omega
      obtain ⟨h1, h2, -⟩ := slot_inj half hh u.1 u.2 0 v.1 v.2 0 hu2 hv2 (by omega) (by omega) h0
      exact Prod.ext h1 h2
    · have h0 : 2 * half * u.1 + u.2 + 0 * half = 2 * half * v.1 + v.2 + 1 * half := by omega
      obtain ⟨-, -, h⟩ := slot_inj half hh u.1 u.2 0 v.1 v.2 1 hu2 hv2 (by omega) (by omega) h0
      omega
    · have h0 : 2 * half * u.1 + u.2 + 1 * half = 2 * half * v.1 + v.2 + 0 * half := by omega
      obtain ⟨-, -, h⟩ := slot_inj half hh u.1 u.2 1 v.1 v.2 0 hu2 hv2 (by omega) (by omega) h0
      omega
    · have h0 : 2 * half * u.1 + u.2 + 1 * half = 2 * half * v.1 + v.2 + 1 * half := by omega
      obtain ⟨h1, h2, -⟩ := slot_inj half hh u.1 u.2 1 v.1 v.2 1 hu2 hv2 (by omega) (by omega) h0
      exact Prod.ext h1 h2
  exact hne huv

lemma bfly_not_write (half len m j : ℕ) (a : ℕ → ℂ) (p : ℕ)
    (h1 : p ≠ m) (h2 : p ≠ m + half) : bfly half len m j a p = a p := by
  unfold bfly
  rw [if_neg h2, if_neg h1]

lemma bfly_reads (half len m j : ℕ) (a b : ℕ → ℂ)
    (hm : a m = b m) (hmh : a (m + half) = b (m + half)) (p : ℕ)
    (hp : p = m ∨ p = m + half) :
    bfly half len m j a p = bfly half len m j b p := by
  unfold bfly
  rw [hm, hmh]
  by_cases h1 : p = m + half
  · rw [if_pos h1, if_pos h1]
  · rw [if_neg h1, if_neg h1]
    by_cases h2 : p = m
    · rw [if_pos h2, if_pos h2]
    · exact absurd hp (by tauto)

/-- Pointwise description of one butterfly pass of `FFT.forward`: each
index `2·half·q + r` (with `r < 2·half`) is written exactly once, by the
butterfly `(q, r % half)`. -/
lemma fftStage_eq (n half : ℕ) (hh : 0 < half) (hdvd : 2 * half ∣ n) (a : ℕ → ℂ)
    (q r : ℕ) (hr : r < 2 * half) (hp : 2 * half * q + r < n) :
    fftStage n (2 * half) a (2 * half * q + r) =
      if r < half then
        a (2 * half * q + r) + a (2 * half * q + r + half) * tw (2 * half) r
      else
        a (2 * half * q + (r - half)) - a (2 * half * q + r) * tw (2 * half) (r - half) := by
  have hhalf : 2 * half / 2 = half := Nat.mul_div_cancel_left half two_pos
  have hq : q < n / (2 * half) := by
    have hK : 2 * half * (n / (2 * half)) = n := Nat.mul_div_cancel' hdvd
    by_contra hq
    push_neg at hq
    have : 2 * half * (n / (2 * half)) ≤ 2 * half * q := Nat.mul_le_mul_left _ hq
    omega
  set step : ℕ × ℕ → (ℕ → ℂ) → ℕ → ℂ :=
    fun u c => bfly half (2 * half) (2 * half * u.1 + u.2) u.2 c with hstep
  have hfold : fftStage n (2 * half) a =
      ((stagePairs (n / (2 * half)) half).foldl (fun x u => step u x) a) := by
    unfold fftStage stagePairs
    rw [hhalf]
    exact nested_foldl_eq half (fun q j c => bfly half (2 * half) (2 * half * q + j) j c)
      (List.range (n / (2 * half))) a
  have hW1 : ∀ (o : ℕ × ℕ) (c : ℕ → ℂ) p, ¬ bflyWrites half o p → step o c p = c p := by
    intro o c p hw
    unfold bflyWrites at hw
    push_neg at hw
    exact bfly_not_write half (2 * half) _ o.2 c p hw.1 hw.2
  have hW2 : ∀ (o : ℕ × ℕ) (c b : ℕ → ℂ),
      (∀ v, bflyWrites half o v → c v = b v) → ∀ p, bflyWrites half o p →
        step o c p = step o b p := by
    intro o c b hcb p hp
    exact bfly_reads half (2 * half) _ o.2 c b
      (hcb _ (Or.inl rfl)) (hcb _ (Or.inr rfl)) p hp
  rw [hfold]
  by_cases hrh : r < half
  · rw [if_pos hrh]
    have hmem : (q, r) ∈ stagePairs (n / (2 * half)) half :=
      stagePairs_mem.2 ⟨hq, hrh⟩
    obtain ⟨l₁, l₂, hl⟩ := List.append_of_mem hmem
    have hdisj : List.Pairwise (fun u v => ∀ p, bflyWrites half u p → ¬ bflyWrites half v p)
        (l₁ ++ (q, r) :: l₂) := by
      rw [← hl]
      refine List.Pairwise.imp_of_mem ?_ (stagePairs_nodup (n / (2 * half)) half)
      intro u v hu hv hne
      exact bflyWrites_disjoint half hh u v (stagePairs_mem.1 hu).2 (stagePairs_mem.1 hv).2 hne
    rw [hl]
    rw [foldl_one_write step (bflyWrites half) hW1 hW2 l₁ l₂ (q, r) a _ hdisj (Or.inl rfl)]
    show bfly half (2 * half) (2 * half * q + r) r a (2 * half * q + r) = _
    unfold bfly
    rw [if_neg (by omega), if_pos rfl]
  · rw [if_neg hrh]
    push_neg at hrh
    have hr2 : r - half < half := by omega
    have hmem : (q, r - half) ∈ stagePairs (n / (2 * half)) half :=
      stagePairs_mem.2 ⟨hq, hr2⟩
    obtain ⟨l₁, l₂, hl⟩ := List.append_of_mem hmem
    have hdisj : List.Pairwise (fun u v => ∀ p, bflyWrites half u p → ¬ bflyWrites half v p)
        (l₁ ++ (q, r - half) :: l₂) := by
      rw [← hl]
      refine List.Pairwise.imp_of_mem ?_ (stagePairs_nodup (n / (2 * half)) half)
      intro u v hu hv hne
      exact bflyWrites_disjoint half hh u v (stagePairs_mem.1 hu).2 (stagePairs_mem.1 hv).2 hne
    have hwr : bflyWrites half (q, r - half) (2 * half * q + r) := by
      unfold bflyWrites
      right
      show 2 * half * q + r = 2 * half * q + (r - half) + half
      omega
    rw [hl]
    rw [foldl_one_write step (bflyWrites half) hW1 hW2 l₁ l₂ (q, r - half) a _ hdisj hwr]
    show bfly half (2 * half) (2 * half * q + (r - half)) (r - half) a (2 * half * q + r) = _
    unfold bfly
    rw [if_pos (by omega)]
    have he : 2 * half * q + (r - half) + half = 2 * half * q + r := by omega
    rw [he]

lemma exp_ofReal_add_mul_I (s u : ℝ) :
    Complex.exp (((s + u : ℝ) : ℂ) * Complex.I) =
      Complex.exp ((s : ℂ) * Complex.I) * Complex.exp ((u : ℂ) * Complex.I) := by
  rw [← Complex.exp_add]
  congr 1
  push_cast
  ring

lemma exp_neg_two_pi_nat (m : ℕ) :
    Complex.exp ((((-2) * Real.pi * m : ℝ) : ℂ) * Complex.I) = 1 := by
  have h : ((((-2) * Real.pi * m : ℝ)) : ℂ) * Complex.I =
      ((-(m : ℤ) : ℤ) : ℂ) * (2 * Real.pi * Complex.I) := by
    push_cast
    ring
  rw [h, Complex.exp_int_mul_two_pi_mul_I]

lemma exp_neg_pi_mul_I : Complex.exp ((((-1) * Real.pi : ℝ) : ℂ) * Complex.I) = -1 := by
  have h : ((((-1) * Real.pi : ℝ)) : ℂ) * Complex.I = -(Real.pi * Complex.I) := by
    push_cast
    ring
  rw [h, Complex.exp_neg, Complex.exp_pi_mul_I]
  norm_num

lemma sum_range_double (f : ℕ → ℂ) (L : ℕ) :
    ∑ m ∈ Finset.range (2 * L), f m =
      ∑ j ∈ Finset.range L, f (2 * j) + ∑ j ∈ Finset.range L, f (2 * j + 1) := by
  induction L with
  | zero => simp
  | succ L ih =>
    have h : 2 * (L + 1) = (2 * L + 1) + 1 := by ring
    rw [h, Finset.sum_range_succ, Finset.sum_range_succ, ih,
        Finset.sum_range_succ, Finset.sum_range_succ]
    ring

/-- Decimation-in-time identity: a length-`2L` DFT splits into the DFTs of
the even and odd subsequences combined by the twiddle `tw (2L) k`. -/
lemma dft_decimate (L : ℕ) (hL : 0 < L) (u : ℕ → ℂ) (k : ℕ) :
    dft (2 * L) u k =
      dft L (fun j => u (2 * j)) k + tw (2 * L) k * dft L (fun j => u (2 * j + 1)) k := by
  have hL' : (L : ℝ) ≠ 0 := Nat.cast_ne_zero.2 (by omega)
  unfold dft
  rw [sum_range_double (fun m => u m *
    Complex.exp ((((-2) * Real.pi * k * m / (((2 * L : ℕ) : ℝ)) : ℝ) : ℂ) * Complex.I)) L]
  congr 1
  · refine Finset.sum_congr rfl ?_
    intro j _
    congr 2
    push_cast
    field_simp
    ring
  · rw [Finset.mul_sum]
    refine Finset.sum_congr rfl ?_
    intro j _
    have harg : ((-2) * Real.pi * k * (2 * j + 1) / (2 * L) : ℝ) =
        ((-2) * Real.pi / (2 * L) * k : ℝ) + ((-2) * Real.pi * k * j / L : ℝ) := by
      field_simp
      ring
    calc u (2 * j + 1) * Complex.exp ((((-2) * Real.pi * k * ((2 * j + 1) : ℕ) / ((2 * L : ℕ)) : ℝ) : ℂ) * Complex.I)
        = u (2 * j + 1) * Complex.exp ((((-2) * Real.pi * k * (2 * j + 1) / (2 * L) : ℝ) : ℂ) * Complex.I) := by
          push_cast
          ring_nf
      _ = u (2 * j + 1) * (Complex.exp ((((-2) * Real.pi / (2 * L) * k : ℝ) : ℂ) * Complex.I) *
            Complex.exp ((((-2) * Real.pi * k * j / L : ℝ) : ℂ) * Complex.I)) := by
          rw [harg, exp_ofReal_add_mul_I]
      _ = tw (2 * L) k * (u (2 * j + 1) *
            Complex.exp ((((-2) * Real.pi * k * j / L : ℝ) : ℂ) * Complex.I)) := by
          unfold tw
          push_cast
          ring

/-- The exponent in the DFT is periodic in `k` with period `N`. -/
lemma dft_sub_period (L : ℕ) (hL : 0 < L) (v : ℕ → ℂ) (r : ℕ) (hr : L ≤ r) :
    dft L v r = dft L v (r - L) := by
  unfold dft
  refine Finset.sum_congr rfl ?_
  intro m _
  congr 1
  have harg : ((-2) * Real.pi * r * m / L : ℝ) =
      ((-2) * Real.pi * ((r - L : ℕ) : ℝ) * m / L : ℝ) + ((-2) * Real.pi * m : ℝ) := by
    have hL' : (L : ℝ) ≠ 0 := Nat.cast_ne_zero.2 (by omega)
    rw [Nat.cast_sub hr]
    field_simp
    ring
  rw [harg, exp_ofReal_add_mul_I, exp_neg_two_pi_nat, mul_one]

lemma tw_add_half (L k : ℕ) (hL : 0 < L) :
    tw (2 * L) (k + L) = - tw (2 * L) k := by
  unfold tw
  have hL' : (L : ℝ) ≠ 0 := Nat.cast_ne_zero.2 (by omega)
  have harg : ((-2) * Real.pi / ((2 * L : ℕ) : ℝ) * ((k + L : ℕ) : ℝ) : ℝ) =
      ((-2) * Real.pi / ((2 * L : ℕ) : ℝ) * k : ℝ) + ((-1) * Real.pi : ℝ) := by
    push_cast
    field_simp
    ring
  rw [harg, exp_ofReal_add_mul_I, exp_neg_pi_mul_I]
  push_cast
  ring

/-- Subsequence of the input that block `b` holds the DFT of after stage
`s`: the samples at stride `2^(t-s)` starting from `rev (b)` in `t-s`
bits. -/
noncomputable def uSub (t s : ℕ) (x : ℕ → ℂ) (b : ℕ) : ℕ → ℂ :=
  fun j => x (revT (t - s) b + j * 2 ^ (t - s))

/-- Array contents after the bit-reversal pass and the first `s` butterfly
passes of `FFT.forward` on an array of size `2^t`. -/
noncomputable def stageArr (t : ℕ) (x : ℕ → ℂ) : ℕ → ℕ → ℂ
  | 0 => bitrevPass (2 ^ t) x
  | s + 1 => fftStage (2 ^ t) (2 ^ (s + 1)) (stageArr t x s)

lemma uSub_even (t s : ℕ) (hs : s + 1 ≤ t) (x : ℕ → ℂ) (q : ℕ) :
    (fun j => uSub t (s + 1) x q (2 * j)) = uSub t s x (2 * q) := by
  funext j
  unfold uSub
  have hm : t - s = (t - (s + 1)) + 1 := by omega
  have hrev : revT (t - s) (2 * q) = revT (t - (s + 1)) q := by
    rw [hm]
    show 2 ^ (t - (s + 1)) * ((2 * q) % 2) + revT (t - (s + 1)) ((2 * q) / 2) = _
    simp [Nat.mul_mod_right, Nat.mul_div_cancel_left]
  rw [hrev, hm]
  congr 2
  ring

lemma uSub_odd (t s : ℕ) (hs : s + 1 ≤ t) (x : ℕ → ℂ) (q : ℕ) :
    (fun j => uSub t (s + 1) x q (2 * j + 1)) = uSub t s x (2 * q + 1) := by
  funext j
  unfold uSub
  have hm : t - s = (t - (s + 1)) + 1 := by omega
  have hrev : revT (t - s) (2 * q + 1) = 2 ^ (t - (s + 1)) + revT (t - (s + 1)) q := by
    rw [hm]
    show 2 ^ (t - (s + 1)) * ((2 * q + 1) % 2) + revT (t - (s + 1)) ((2 * q + 1) / 2) = _
    rw [Nat.mul_add_mod, Nat.mul_add_div two_pos]
    norm_num
  rw [hrev, hm]
  congr 1
  ring

lemma block_bound (d q r n : ℕ) (_hd : 0 < d) (hdvd : d ∣ n) (h : d * q + r < n) :
    d * q + d ≤ n := by
  have hn : d * (n / d) = n := Nat.mul_div_cancel' hdvd
  have hq : q < n / d := by
    by_contra hq
    push_neg at hq
    have : d * (n / d) ≤ d * q := Nat.mul_le_mul_left _ hq
    omega
  have h1 : d * (q + 1) ≤ d * (n / d) := Nat.mul_le_mul_left _ hq
  have h2 : d * (q + 1) = d * q + d := by ring
  omega

/-- Main loop invariant of `FFT.forward`: after `s` butterfly passes each
block of `2^s` consecutive entries holds the DFT of the corresponding
decimated subsequence of the input. -/
lemma stageArr_eq (t : ℕ) (x : ℕ → ℂ) :
    ∀ s, s ≤ t → ∀ q r, r < 2 ^ s → 2 ^ s * q + r < 2 ^ t →
      stageArr t x s (2 ^ s * q + r) = dft (2 ^ s) (uSub t s x q) r := by
  intro s
  induction s with
  | zero =>
    intro _ q r hr hp
    have hr0 : r = 0 := by omega
    subst hr0
    have hpq : 2 ^ 0 * q + 0 = q := by ring
    rw [hpq] at hp ⊢
    show bitrevPass (2 ^ t) x q = _
    rw [bitrevPass_eq t x q, if_pos hp]
    unfold dft uSub
    simp only [pow_zero]
    rw [Finset.sum_range_one]
    norm_num
  | succ s ih =>
    intro hst q r hr hp
    have hs : s ≤ t := by omega
    have h2 : (2:ℕ) ^ (s + 1) = 2 * 2 ^ s := by ring
    have hhalf : 0 < (2:ℕ) ^ s := Nat.pos_pow_of_pos s two_pos
    have hdvd : 2 * 2 ^ s ∣ 2 ^ t := h2 ▸ pow_dvd_pow 2 hst
    have hL : (0:ℕ) < 2 ^ s := hhalf
    show fftStage (2 ^ t) (2 ^ (s + 1)) (stageArr t x s) (2 ^ (s + 1) * q + r) = _
    rw [h2] at hr hp ⊢
    rw [fftStage_eq (2 ^ t) (2 ^ s) hhalf hdvd (stageArr t x s) q r hr hp]
    have hblock : 2 * 2 ^ s * q + 2 * 2 ^ s ≤ 2 ^ t :=
      block_bound (2 * 2 ^ s) q r (2 ^ t) (by omega) hdvd hp
    by_cases hrh : r < 2 ^ s
    · rw [if_pos hrh]
      have e1 : 2 * 2 ^ s * q + r = 2 ^ s * (2 * q) + r := by ring
      have e2 : 2 ^ s * (2 * q) + r + 2 ^ s = 2 ^ s * (2 * q + 1) + r := by ring
      rw [e1, ih hs (2 * q) r hrh (by omega)]
      rw [e2, ih hs (2 * q + 1) r hrh (by omega)]
      rw [dft_decimate (2 ^ s) hL (uSub t (s + 1) x q) r,
          uSub_even t s hst x q, uSub_odd t s hst x q]
      ring
    · rw [if_neg hrh]
      push_neg at hrh
      have hr2 : r - 2 ^ s < 2 ^ s := by omega
      have e1 : 2 * 2 ^ s * q + (r - 2 ^ s) = 2 ^ s * (2 * q) + (r - 2 ^ s) := by ring
      have e2 : 2 * 2 ^ s * q + r = 2 ^ s * (2 * q + 1) + (r - 2 ^ s) := by
        have h : 2 ^ s * (2 * q + 1) = 2 * 2 ^ s * q + 2 ^ s := by ring
        omega
      rw [e1, ih hs (2 * q) (r - 2 ^ s) hr2 (by omega)]
      rw [e2, ih hs (2 * q + 1) (r - 2 ^ s) hr2 (by omega)]
      rw [dft_decimate (2 ^ s) hL (uSub t (s + 1) x q) r,
          uSub_even t s hst x q, uSub_odd t s hst x q]
      rw [dft_sub_period (2 ^ s) hL (uSub t s x (2 * q)) r hrh,
          dft_sub_period (2 ^ s) hL (uSub t s x (2 * q + 1)) r hrh]
      have htw : tw (2 * 2 ^ s) r = - tw (2 * 2 ^ s) (r - 2 ^ s) := by
        have h := tw_add_half (2 ^ s) (r - 2 ^ s) hL
        rw [show r - 2 ^ s + 2 ^ s = r from by omega] at h
        rw [h]
      rw [htw]
      ring

lemma fftLoop_stageArr (t : ℕ) (x : ℕ → ℂ) :
    ∀ k s, t = s + k → fftLoop (2 ^ t) (2 ^ (s + 1)) (stageArr t x s) = stageArr t x t := by
  intro k
  induction k with
  | zero =>
    intro s hs
    have hts : s = t := by omega
    subst hts
    rw [fftLoop]
    have hlt : (2:ℕ) ^ s < 2 ^ (s + 1) := Nat.pow_lt_pow_succ one_lt_two
    rw [dif_neg (by omega)]
  | succ k ih =>
    intro s hs
    rw [fftLoop]
    have hle : (2:ℕ) ^ (s + 1) ≤ 2 ^ t := Nat.pow_le_pow_right (by omega) (by omega)
    rw [dif_pos ⟨Nat.pos_pow_of_pos _ two_pos, hle⟩]
    have e1 : 2 * 2 ^ (s + 1) = 2 ^ (s + 1 + 1) := by ring
    have e2 : fftStage (2 ^ t) (2 ^ (s + 1)) (stageArr t x s) = stageArr t x (s + 1) := rfl
    rw [e1, e2]
    exact ih (s + 1) (by omega)

/-- Correctness of the whole forward transform: for a power-of-two size it
computes the DFT at every index below the size. -/
lemma fftForward_eq_dft (t : ℕ) (x : ℕ → ℂ) (k : ℕ) (hk : k < 2 ^ t) :
    fftForward (2 ^ t) x k = dft (2 ^ t) x k := by
  unfold fftForward
  have h0 : bitrevPass (2 ^ t) x = stageArr t x 0 := rfl
  have hloop := fftLoop_stageArr t x t 0 (by omega)
  norm_num at hloop
  rw [h0, hloop]
  have hmain := stageArr_eq t x t le_rfl 0 k hk (by simpa using hk)
  rw [show 2 ^ t * 0 + k = k from by ring] at hmain
  rw [hmain]
  unfold dft
  refine Finset.sum_congr rfl ?_
  intro m _
  congr 2
  unfold uSub
  have : t - t = 0 := by omega
  rw [this]
  show x (revT 0 0 + m * 2 ^ 0) = x m
  norm_num [revT]

/-- C1: for every power of two `N = 2^t` and every complex array (pair of
real arrays), `FFT.forward` performs the in-place DFT: after the call the
value stored at every bin `k < N` equals `X[k] = Σₙ x[n]·e^(-2πi·k·n/N)`
of the original contents, in exact real arithmetic, via the bit-reversal
permutation followed by the `log₂ N` butterfly passes. -/
theorem c1_fft_forward_computes_dft (t : ℕ) (x : ℕ → ℂ) (k : ℕ) (hk : k < 2 ^ t) :
    fftForward (2 ^ t) x k = dft (2 ^ t) x k :=
  fftForward_eq_dft t x k hk

theorem c1_fft_forward_computes_dft_witness :
    (0 : ℕ) < 2 ^ 1 ∧ fftForward (2 ^ 1) (fun _ => 1) 0 = dft (2 ^ 1) (fun _ => 1) 0 :=
  ⟨by norm_num, c1_fft_forward_computes_dft 1 (fun _ => 1) 0 (by norm_num)⟩

lemma conj_exp_ofReal_mul_I (θ : ℝ) :
    (starRingEnd ℂ) (Complex.exp ((θ : ℂ) * Complex.I)) =
      Complex.exp (((-θ : ℝ) : ℂ) * Complex.I) := by
  rw [← Complex.exp_conj]
  congr 1
  rw [map_mul, Complex.conj_ofReal, Complex.conj_I]
  push_cast
  ring

lemma dft_congr_lt (N : ℕ) (x y : ℕ → ℂ) (k : ℕ) (h : ∀ m, m < N → x m = y m) :
    dft N x k = dft N y k := by
  unfold dft
  refine Finset.sum_congr rfl ?_
  intro m hm
  rw [h m (Finset.mem_range.1 hm)]

/-- Orthogonality of the characters: summing `e^(2πi·(p-l)·m/N)` over `m`
gives `N` when `l = p` and `0` otherwise (for `p, l < N`). -/
lemma inner_orth (N : ℕ) (hN : 0 < N) (p l : ℕ) (hp : p < N) (hl : l < N) :
    ∑ m ∈ Finset.range N,
      Complex.exp (((2 * Real.pi * ((p : ℝ) - l) / N * m : ℝ) : ℂ) * Complex.I) =
      if l = p then (N : ℂ) else 0 := by
  by_cases he : l = p
  · subst he
    rw [if_pos rfl]
    have hone : ∀ m ∈ Finset.range N,
        Complex.exp (((2 * Real.pi * ((l : ℝ) - l) / N * m : ℝ) : ℂ) * Complex.I) = 1 := by
      intro m _
      have h0 : (2 * Real.pi * ((l : ℝ) - l) / N * m : ℝ) = 0 := by
        rw [sub_self]
        ring
      rw [h0]
      simp
    rw [Finset.sum_congr rfl hone]
    simp
  · rw [if_neg he]
    set ζ : ℂ := Complex.exp (((2 * Real.pi * ((p : ℝ) - l) / N : ℝ) : ℂ) * Complex.I) with hζ
    have hterm : ∀ m : ℕ,
        Complex.exp (((2 * Real.pi * ((p : ℝ) - l) / N * m : ℝ) : ℂ) * Complex.I) = ζ ^ m := by
      intro m
      rw [hζ, ← Complex.exp_nat_mul]
      congr 1
      push_cast
      ring
    rw [Finset.sum_congr rfl (fun m _ => hterm m)]
    have hNne : (N : ℝ) ≠ 0 := Nat.cast_ne_zero.2 (by omega)
    have hNC' : ((N : ℕ) : ℂ) ≠ 0 := Nat.cast_ne_zero.2 (by omega)
    have hζN : ζ ^ N = 1 := by
      rw [hζ, ← Complex.exp_nat_mul]
      have harg : (N : ℂ) * (((2 * Real.pi * ((p : ℝ) - l) / N : ℝ) : ℂ) * Complex.I) =
          (((p : ℤ) - l : ℤ) : ℂ) * (2 * Real.pi * Complex.I) := by
        push_cast
        field_simp
        ring
      rw [harg, Complex.exp_int_mul_two_pi_mul_I]
    have hζ1 : ζ ≠ 1 := by
      intro h1
      rw [hζ, Complex.exp_eq_one_iff] at h1
      obtain ⟨n, hn⟩ := h1
      have hI : Complex.I ≠ 0 := Complex.I_ne_zero
      have h2 : ((2 * Real.pi * ((p : ℝ) - l) / N : ℝ) : ℂ) = (n : ℂ) * (2 * Real.pi) :=
        mul_right_cancel₀ hI (by rw [hn]; ring)
      have h3 : (2 * Real.pi * ((p : ℝ) - l) / N : ℝ) = (n : ℝ) * (2 * Real.pi) := by
        rw [show ((n : ℂ) * (2 * Real.pi) : ℂ) = (((n : ℝ) * (2 * Real.pi) : ℝ) : ℂ) by
          push_cast; ring] at h2
        exact_mod_cast h2
      have h2pi : (0:ℝ) < 2 * Real.pi := by positivity
      rw [div_eq_iff hNne] at h3
      have h4 : (p : ℝ) - l = (n : ℝ) * N := by
        apply mul_left_cancel₀ (ne_of_gt h2pi)
        linear_combination h3
      have h5 : ((p : ℤ) - l : ℤ) = n * N := by
        exact_mod_cast h4
      have h6 : |((p : ℤ) - l : ℤ)| < N := by
        rw [abs_lt]
        omega
      have h7 : n = 0 := by
        by_contra hn0
        have h8 : (1:ℤ) ≤ |n| := Int.one_le_abs (by omega)
        have h9 : (N:ℤ) ≤ |n * N| := by
          rw [abs_mul, abs_of_nonneg (by positivity : (0:ℤ) ≤ (N:ℤ))]
          calc (N:ℤ) = 1 * N := (one_mul _).symm
            _ ≤ |n| * N := by
                apply mul_le_mul_of_nonneg_right h8 (by positivity)
        rw [← h5] at h9
        omega
      rw [h7] at h5
      simp at h5
      omega
    rw [geom_sum_eq hζ1 N, hζN]
    simp

lemma dft_apply (N : ℕ) (y : ℕ → ℂ) (k : ℕ) :
    dft N y k = ∑ m ∈ Finset.range N,
      y m * Complex.exp ((((-2) * Real.pi * k * m / ((N : ℕ) : ℝ) : ℝ) : ℂ) * Complex.I) := rfl

lemma fftInverse_apply (n : ℕ) (a : ℕ → ℂ) (p : ℕ) (hp : p < n) :
    fftInverse n a p = ((1 : ℂ) / n) * (starRingEnd ℂ)
      (fftForward n (fun q => if q < n then (starRingEnd ℂ) (a q) else a q) p) := by
  unfold fftInverse
  simp only [if_pos hp]

/-- Round-trip identity of the source FFT: `inverse (forward x) = x`
pointwise below the size, in exact arithmetic, for arbitrary complex
input. -/
lemma fftInverse_fftForward (t : ℕ) (x : ℕ → ℂ) (p : ℕ) (hp : p < 2 ^ t) :
    fftInverse (2 ^ t) (fftForward (2 ^ t) x) p = x p := by
  have hN0 : 0 < 2 ^ t := Nat.pos_pow_of_pos t two_pos
  have hNC : ((2 ^ t : ℕ) : ℂ) ≠ 0 := Nat.cast_ne_zero.2 (by omega)
  rw [fftInverse_apply (2 ^ t) _ p hp]
  rw [fftForward_eq_dft t _ p hp]
  have hc : dft (2 ^ t)
        (fun q => if q < 2 ^ t then (starRingEnd ℂ) (fftForward (2 ^ t) x q)
          else fftForward (2 ^ t) x q) p =
      dft (2 ^ t) (fun q => (starRingEnd ℂ) (dft (2 ^ t) x q)) p := by
    apply dft_congr_lt
    intro m hm
    simp only [if_pos hm, fftForward_eq_dft t x m hm]
  rw [hc]
  rw [dft_apply (2 ^ t) (fun q => (starRingEnd ℂ) (dft (2 ^ t) x q)) p]
  rw [map_sum]
  have h1 : ∀ m ∈ Finset.range (2 ^ t),
      (starRingEnd ℂ) ((starRingEnd ℂ) (dft (2 ^ t) x m) *
        Complex.exp ((((-2) * Real.pi * p * m / ((2 ^ t : ℕ) : ℝ) : ℝ) : ℂ) * Complex.I)) =
      dft (2 ^ t) x m *
        Complex.exp (((2 * Real.pi * p * m / ((2 ^ t : ℕ) : ℝ) : ℝ) : ℂ) * Complex.I) := by
    intro m _
    rw [map_mul, Complex.conj_conj, conj_exp_ofReal_mul_I]
    congr 2
    push_cast
    ring
  rw [Finset.sum_congr rfl h1]
  have h2 : ∀ m ∈ Finset.range (2 ^ t),
      dft (2 ^ t) x m *
        Complex.exp (((2 * Real.pi * p * m / ((2 ^ t : ℕ) : ℝ) : ℝ) : ℂ) * Complex.I) =
      ∑ l ∈ Finset.range (2 ^ t), x l *
        (Complex.exp ((((-2) * Real.pi * m * l / ((2 ^ t : ℕ) : ℝ) : ℝ) : ℂ) * Complex.I) *
         Complex.exp (((2 * Real.pi * p * m / ((2 ^ t : ℕ) : ℝ) : ℝ) : ℂ) * Complex.I)) := by
    intro m _
    rw [dft_apply, Finset.sum_mul]
    exact Finset.sum_congr rfl (fun l _ => mul_assoc _ _ _)
  rw [Finset.sum_congr rfl h2]
  rw [Finset.sum_comm]
  have h3 : ∀ l ∈ Finset.range (2 ^ t),
      (∑ m ∈ Finset.range (2 ^ t), x l *
        (Complex.exp ((((-2) * Real.pi * m * l / ((2 ^ t : ℕ) : ℝ) : ℝ) : ℂ) * Complex.I) *
         Complex.exp (((2 * Real.pi * p * m / ((2 ^ t : ℕ) : ℝ) : ℝ) : ℂ) * Complex.I))) =
      x l * (if l = p then ((2 ^ t : ℕ) : ℂ) else 0) := by
    intro l hl
    rw [← Finset.mul_sum]
    congr 1
    have h4 : ∀ m ∈ Finset.range (2 ^ t),
        Complex.exp ((((-2) * Real.pi * m * l / ((2 ^ t : ℕ) : ℝ) : ℝ) : ℂ) * Complex.I) *
          Complex.exp (((2 * Real.pi * p * m / ((2 ^ t : ℕ) : ℝ) : ℝ) : ℂ) * Complex.I) =
        Complex.exp (((2 * Real.pi * ((p : ℝ) - l) / ((2 ^ t : ℕ) : ℝ) * m : ℝ) : ℂ) *
          Complex.I) := by
      intro m _
      rw [← exp_ofReal_add_mul_I]
      congr 2
      push_cast
      ring
    rw [Finset.sum_congr rfl h4]
    exact inner_orth (2 ^ t) hN0 p l hp (Finset.mem_range.1 hl)
  rw [Finset.sum_congr rfl h3]
  rw [Finset.sum_eq_single p
    (fun b _ hb => by rw [if_neg hb, mul_zero])
    (fun h => absurd (Finset.mem_range.2 hp) h)]
  rw [if_pos rfl]
  field_simp

/-- C2: for every power-of-two size `N = 2^t` and every real input array
(`imag = 0`), `FFT.inverse` applied after `FFT.forward` recovers the
input exactly in exact real arithmetic: `inverse` conjugates the inputs,
runs `forward`, then conjugates and scales by `1/N`. -/
theorem c2_fft_inverse_forward_round_trip (t : ℕ) (x : ℕ → ℂ)
    (_hreal : ∀ m, (x m).im = 0) (p : ℕ) (hp : p < 2 ^ t) :
    fftInverse (2 ^ t) (fftForward (2 ^ t) x) p = x p :=
  fftInverse_fftForward t x p hp

theorem c2_fft_inverse_forward_round_trip_witness :
    (∀ m : ℕ, ((fun _ => (1 : ℂ)) m).im = 0) ∧ (0 : ℕ) < 2 ^ 1 ∧
      fftInverse (2 ^ 1) (fftForward (2 ^ 1) (fun _ => 1)) 0 = 1 :=
  ⟨fun _ => by simp, by norm_num,
    c2_fft_inverse_forward_round_trip 1 (fun _ => 1) (fun _ => by simp) 0 (by norm_num)⟩

/-- Amplitude `Math.sqrt(real[i]*real[i] + imag[i]*imag[i])` computed by
the rephaser. -/
noncomputable def jsAmp (z : ℂ) : ℝ := Real.sqrt (z.re * z.re + z.im * z.im)

/-- Spectrum after steps 2-4 of `makeRephaser` (`src/index.js` lines
101-119): forward FFT, then for `i ≤ winSize/2` set
`real[i] = amp·cos φᵢ`, `imag[i] = amp·sin φᵢ`, then mirror
`real[N-i] = real[i]`, `imag[N-i] = -imag[i]` for `i ∈ [1, winSize/2)`. -/
noncomputable def rephased (N : ℕ) (x : ℕ → ℂ) (φ : ℕ → ℝ) : ℕ → ℂ :=
  fun p =>
    if p ≤ N / 2 then
      ((jsAmp (fftForward N x p) * Real.cos (φ p) : ℝ) : ℂ) +
        ((jsAmp (fftForward N x p) * Real.sin (φ p) : ℝ) : ℂ) * Complex.I
    else if p < N then
      ((jsAmp (fftForward N x (N - p)) * Real.cos (φ (N - p)) : ℝ) : ℂ) +
        ((-(jsAmp (fftForward N x (N - p)) * Real.sin (φ (N - p))) : ℝ) : ℂ) * Complex.I
    else fftForward N x p

/-- Step 5 of `makeRephaser`: the inverse FFT of the rephased spectrum
(the complex array whose real part the rephaser copies back). -/
noncomputable def rephaseOut (N : ℕ) (x : ℕ → ℂ) (φ : ℕ → ℝ) : ℕ → ℂ :=
  fftInverse N (rephased N x φ)

lemma exp_two_pi_p_nat (p : ℕ) :
    Complex.exp (((2 * Real.pi * p : ℝ) : ℂ) * Complex.I) = 1 := by
  have h : (((2 * Real.pi * p : ℝ)) : ℂ) * Complex.I =
      ((p : ℤ) : ℂ) * (2 * Real.pi * Complex.I) := by
    push_cast
    ring
  rw [h, Complex.exp_int_mul_two_pi_mul_I]

/-- Inverse FFT of a Hermitian-symmetric spectrum is real-valued: if
`Z[(N-k) mod N] = conj Z[k]` for all `k < N`, every output sample of
`FFT.inverse` has zero imaginary part. -/
lemma fftInverse_im_zero_of_hermitian (t : ℕ) (Z : ℕ → ℂ)
    (hherm : ∀ k, k < 2 ^ t → Z ((2 ^ t - k) % 2 ^ t) = (starRingEnd ℂ) (Z k)) :
    ∀ p, p < 2 ^ t → (fftInverse (2 ^ t) Z p).im = 0 := by
  intro p hp
  have hN0 : 0 < 2 ^ t := Nat.pos_pow_of_pos t two_pos
  rw [fftInverse_apply (2 ^ t) Z p hp]
  have hS : fftForward (2 ^ t)
      (fun q => if q < 2 ^ t then (starRingEnd ℂ) (Z q) else Z q) p =
      dft (2 ^ t) (fun m => (starRingEnd ℂ) (Z m)) p := by
    rw [fftForward_eq_dft t _ p hp]
    apply dft_congr_lt
    intro m hm
    rw [if_pos hm]
  rw [hS]
  set S : ℂ := dft (2 ^ t) (fun m => (starRingEnd ℂ) (Z m)) p with hSdef
  have hz : ((1 : ℂ) / (2 ^ t : ℕ)) = (((1 / (2 ^ t : ℕ) : ℝ)) : ℂ) := by push_cast; ring
  rw [hz, Complex.ofReal_mul']
  show (1 / ((2 ^ t : ℕ) : ℝ)) * ((starRingEnd ℂ) S).im = 0
  have hstarS : (starRingEnd ℂ) S =
      ∑ m ∈ Finset.range (2 ^ t), Z m *
        Complex.exp (((2 * Real.pi * p * m / ((2 ^ t : ℕ) : ℝ) : ℝ) : ℂ) * Complex.I) := by
    rw [hSdef, dft_apply, map_sum]
    refine Finset.sum_congr rfl ?_
    intro m _
    rw [map_mul, Complex.conj_conj, conj_exp_ofReal_mul_I]
    congr 2
    push_cast
    ring
  have hflip : ∑ m ∈ Finset.range (2 ^ t), Z m *
      Complex.exp (((2 * Real.pi * p * m / ((2 ^ t : ℕ) : ℝ) : ℝ) : ℂ) * Complex.I) = S := by
    rw [hSdef, dft_apply (2 ^ t) (fun m => (starRingEnd ℂ) (Z m)) p]
    refine Finset.sum_nbij' (fun m => (2 ^ t - m) % 2 ^ t) (fun m => (2 ^ t - m) % 2 ^ t)
      ?_ ?_ ?_ ?_ ?_
    · intro a _
      exact Finset.mem_range.2 (Nat.mod_lt _ hN0)
    · intro a _
      exact Finset.mem_range.2 (Nat.mod_lt _ hN0)
    · intro a ha
      have ha' : a < 2 ^ t := Finset.mem_range.1 ha
      show (2 ^ t - (2 ^ t - a) % 2 ^ t) % 2 ^ t = a
      rcases Nat.eq_zero_or_pos a with rfl | hpos
      · simp
      · have h1 : (2 ^ t - a) % 2 ^ t = 2 ^ t - a := Nat.mod_eq_of_lt (by omega)
        rw [h1]
        have h2 : 2 ^ t - (2 ^ t - a) = a := by omega
        rw [h2, Nat.mod_eq_of_lt ha']
    · intro a ha
      have ha' : a < 2 ^ t := Finset.mem_range.1 ha
      show (2 ^ t - (2 ^ t - a) % 2 ^ t) % 2 ^ t = a
      rcases Nat.eq_zero_or_pos a with rfl | hpos
      · simp
      · have h1 : (2 ^ t - a) % 2 ^ t = 2 ^ t - a := Nat.mod_eq_of_lt (by omega)
        rw [h1]
        have h2 : 2 ^ t - (2 ^ t - a) = a := by omega
        rw [h2, Nat.mod_eq_of_lt ha']
    · intro a ha
      have ha' : a < 2 ^ t := Finset.mem_range.1 ha
      have hZa : (starRingEnd ℂ) (Z ((2 ^ t - a) % 2 ^ t)) = Z a := by
        rw [hherm a ha', Complex.conj_conj]
      show Z a * Complex.exp (((2 * Real.pi * p * a / ((2 ^ t : ℕ) : ℝ) : ℝ) : ℂ) *
          Complex.I) =
        (starRingEnd ℂ) (Z ((2 ^ t - a) % 2 ^ t)) *
          Complex.exp ((((-2) * Real.pi * p * ((2 ^ t - a) % 2 ^ t : ℕ) / ((2 ^ t : ℕ) : ℝ) :
            ℝ) : ℂ) * Complex.I)
      rw [hZa]
      congr 1
      rcases Nat.eq_zero_or_pos a with rfl | hpos
      · norm_num
      · have h1 : (2 ^ t - a) % 2 ^ t = 2 ^ t - a := Nat.mod_eq_of_lt (by omega)
        rw [h1]
        have harg : ((-2) * Real.pi * p * ((2 ^ t - a : ℕ) : ℝ) / ((2 ^ t : ℕ) : ℝ) : ℝ) =
            (2 * Real.pi * p * a / ((2 ^ t : ℕ) : ℝ) : ℝ) + (-(2 * Real.pi * p) : ℝ) := by
          have hc : ((2 ^ t - a : ℕ) : ℝ) = ((2 ^ t : ℕ) : ℝ) - a := by
            push_cast [Nat.cast_sub (le_of_lt ha')]
            ring
          have hne : ((2 ^ t : ℕ) : ℝ) ≠ 0 := Nat.cast_ne_zero.2 (by omega)
          rw [hc]
          field_simp
          ring
        rw [harg, exp_ofReal_add_mul_I]
        have hneg : Complex.exp (((-(2 * Real.pi * p) : ℝ) : ℂ) * Complex.I) = 1 := by
          rw [show ((-(2 * Real.pi * p) : ℝ) : ℂ) * Complex.I =
              ((-(p : ℤ) : ℤ) : ℂ) * (2 * Real.pi * Complex.I) by push_cast; ring,
            Complex.exp_int_mul_two_pi_mul_I]
        rw [hneg, mul_one]
  have hSreal : S.im = 0 := by
    have : (starRingEnd ℂ) S = S := by rw [hstarS, hflip]
    exact Complex.conj_eq_iff_im.1 this
  rw [Complex.conj_im, hSreal]
  ring

lemma rephased_low (N : ℕ) (x : ℕ → ℂ) (φ : ℕ → ℝ) (p : ℕ) (hp : p ≤ N / 2) :
    rephased N x φ p =
      ((jsAmp (fftForward N x p) * Real.cos (φ p) : ℝ) : ℂ) +
        ((jsAmp (fftForward N x p) * Real.sin (φ p) : ℝ) : ℂ) * Complex.I := by
  unfold rephased
  rw [if_pos hp]

lemma rephased_mirror (N : ℕ) (x : ℕ → ℂ) (φ : ℕ → ℝ) (p : ℕ)
    (hp1 : ¬ p ≤ N / 2) (hp2 : p < N) :
    rephased N x φ p =
      ((jsAmp (fftForward N x (N - p)) * Real.cos (φ (N - p)) : ℝ) : ℂ) +
        ((-(jsAmp (fftForward N x (N - p)) * Real.sin (φ (N - p))) : ℝ) : ℂ) * Complex.I := by
  unfold rephased
  rw [if_neg hp1, if_pos hp2]

lemma conj_mk_form (a b : ℝ) :
    (starRingEnd ℂ) ((a : ℂ) + (b : ℂ) * Complex.I) = (a : ℂ) + ((-b : ℝ) : ℂ) * Complex.I := by
  rw [map_add, map_mul, Complex.conj_ofReal, Complex.conj_ofReal, Complex.conj_I]
  push_cast
  ring

/-- The spectrum built by the rephaser is Hermitian-symmetric provided the
random phases drawn for bin 0 and bin `N/2` have zero sine. -/
lemma rephased_hermitian (t : ℕ) (x : ℕ → ℂ) (φ : ℕ → ℝ)
    (h0 : Real.sin (φ 0) = 0) (hH : Real.sin (φ (2 ^ (t + 1) / 2)) = 0) :
    ∀ k, k < 2 ^ (t + 1) →
      rephased (2 ^ (t + 1)) x φ ((2 ^ (t + 1) - k) % 2 ^ (t + 1)) =
        (starRingEnd ℂ) (rephased (2 ^ (t + 1)) x φ k) := by
  intro k hk
  have hN2 : (2:ℕ) ^ (t + 1) = 2 * 2 ^ t := by ring
  have hhalf : 2 ^ (t + 1) / 2 = 2 ^ t := by omega
  have hpos : 0 < (2:ℕ) ^ t := Nat.pos_pow_of_pos t two_pos
  rcases Nat.eq_zero_or_pos k with rfl | hkpos
  · -- bin 0 is fixed by the index map; it must be self-conjugate
    have hsub : (2 ^ (t + 1) - 0) % 2 ^ (t + 1) = 0 := by
      simp
    rw [hsub, rephased_low _ x φ 0 (by omega), conj_mk_form]
    rw [h0]
    norm_num
  · have hsub : (2 ^ (t + 1) - k) % 2 ^ (t + 1) = 2 ^ (t + 1) - k :=
      Nat.mod_eq_of_lt (by omega)
    rw [hsub]
    rcases lt_trichotomy k (2 ^ t) with hklt | hkeq | hkgt
    · -- mirrored bins [1, half)
      have hge : ¬ (2 ^ (t + 1) - k ≤ 2 ^ (t + 1) / 2) := by omega
      rw [rephased_mirror _ x φ _ hge (by omega),
          rephased_low _ x φ k (by omega), conj_mk_form]
      have he : 2 ^ (t + 1) - (2 ^ (t + 1) - k) = k := by omega
      rw [he]
    · -- bin half must be self-conjugate
      subst hkeq
      have he : 2 ^ (t + 1) - 2 ^ t = 2 ^ t := by omega
      rw [he, rephased_low _ x φ _ (by omega), conj_mk_form]
      rw [hhalf] at hH
      rw [hH]
      norm_num
    · -- bins above half mirror back into [1, half)
      have hle : 2 ^ (t + 1) - k ≤ 2 ^ (t + 1) / 2 := by omega
      rw [rephased_low _ x φ _ hle,
          rephased_mirror _ x φ k (by omega) hk, conj_mk_form]
      norm_num

/-- C3 (amended): if additionally the random phases drawn for bin 0 and
bin `half_size` have zero sine (those bins are then genuinely
self-conjugate), the inverse FFT of the rephased, Hermitian-mirrored
spectrum is real-valued: its imaginary part is zero in exact
arithmetic. -/
theorem c3_rephased_inverse_real_amended (t : ℕ) (x : ℕ → ℂ)
    (_hx : ∀ m, (x m).im = 0) (φ : ℕ → ℝ)
    (h0 : Real.sin (φ 0) = 0) (hH : Real.sin (φ (2 ^ (t + 1) / 2)) = 0)
    (p : ℕ) (hp : p < 2 ^ (t + 1)) :
    (rephaseOut (2 ^ (t + 1)) x φ p).im = 0 := by
  unfold rephaseOut
  exact fftInverse_im_zero_of_hermitian (t + 1) (rephased (2 ^ (t + 1)) x φ)
    (rephased_hermitian t x φ h0 hH) p hp

theorem c3_rephased_inverse_real_amended_witness :
    (∀ m : ℕ, ((fun _ => (1 : ℂ)) m).im = 0) ∧ Real.sin 0 = 0 ∧
      (0 : ℕ) < 2 ^ (0 + 1) ∧
      (rephaseOut (2 ^ (0 + 1)) (fun _ => 1) (fun _ => 0) 0).im = 0 :=
  ⟨fun _ => Complex.one_im, Real.sin_zero, by norm_num,
    c3_rephased_inverse_real_amended 0 (fun _ => 1) (fun _ => Complex.one_im) (fun _ => 0)
      Real.sin_zero Real.sin_zero 0 (by norm_num)⟩

/-- Input block used in the counterexample to the unconditional claim C3:
a unit impulse. -/
noncomputable def c3ExX : ℕ → ℂ := fun n => if n = 0 then 1 else 0

/-- Random phases used in the counterexample: every bin, including bin 0
and bin `half_size`, draws the phase `π/2`. -/
noncomputable def c3ExPhi : ℕ → ℝ := fun _ => Real.pi / 2

lemma sum_range_two' {f : ℕ → ℂ} : ∑ m ∈ Finset.range 2, f m = f 0 + f 1 := by
  rw [show (2:ℕ) = 1 + 1 from rfl, Finset.sum_range_succ, Finset.sum_range_one]

lemma c3Ex_forward (k : ℕ) (hk : k < 2) : fftForward 2 c3ExX k = 1 := by
  have hfd := fftForward_eq_dft 1 c3ExX k (by omega)
  norm_num at hfd
  rw [hfd, dft_apply, sum_range_two']
  unfold c3ExX
  norm_num [Complex.ofReal_zero, Complex.exp_zero]

lemma c3Ex_Z0 : rephased 2 c3ExX c3ExPhi 0 = Complex.I := by
  rw [rephased_low 2 _ _ 0 (by norm_num), c3Ex_forward 0 (by norm_num)]
  unfold jsAmp c3ExPhi
  norm_num [Complex.one_re, Complex.one_im, Real.cos_pi_div_two, Real.sin_pi_div_two]

lemma c3Ex_Z1 : rephased 2 c3ExX c3ExPhi 1 = Complex.I := by
  rw [rephased_low 2 _ _ 1 (by norm_num), c3Ex_forward 1 (by norm_num)]
  unfold jsAmp c3ExPhi
  norm_num [Complex.one_re, Complex.one_im, Real.cos_pi_div_two, Real.sin_pi_div_two]

/-- C3 (counterexample): with the phase `π/2` drawn at every bin of a
size-2 transform of a unit impulse, the inverse FFT of the rephased
spectrum has imaginary part 1 at sample 0 — the rephaser assigns random
phases to bins 0 and `half_size` as well, so those bins are not
self-conjugate and the inverse is not real-valued in exact arithmetic. -/
theorem c3_rephased_inverse_real_counterexample :
    (rephaseOut 2 c3ExX c3ExPhi 0).im ≠ 0 := by
  unfold rephaseOut
  rw [fftInverse_apply 2 _ 0 (by norm_num)]
  have hfd := fftForward_eq_dft 1
    (fun q => if q < 2 then (starRingEnd ℂ) (rephased 2 c3ExX c3ExPhi q)
      else rephased 2 c3ExX c3ExPhi q) 0 (by omega)
  norm_num at hfd
  rw [hfd, dft_apply, sum_range_two']
  norm_num [c3Ex_Z0, c3Ex_Z1, Complex.conj_I, Complex.ofReal_zero, Complex.exp_zero]

/-- Embedding of `Math.pow(2, Math.ceil(Math.log2(n)))`, the power-of-two
rounding used for `winSize` in `stretch` (`src/index.js` line 426) and in
`_nextPowerOf2` (`src/paulstretch-fft.js` lines 281-283), in exact real
arithmetic.  (For `n = 0` JavaScript would produce `2^(-∞) = 0`; the
claims only concern `n ≥ 1`.) -/
noncomputable def jsNextPow2 (n : ℕ) : ℕ := 2 ^ (⌈Real.logb 2 n⌉.toNat)

/-- Embedding of `windowSamples = Math.floor(this.windowSize * sampleRate)`
(`src/index.js` line 423). -/
noncomputable def winSamplesOf (windowSize : ℝ) (sampleRate : ℕ) : ℕ :=
  ⌊windowSize * sampleRate⌋₊

/-- The `winSize` value `stretch` derives and passes to the FFT, the
window builder and the rephaser. -/
noncomputable def winSizeOf (windowSize : ℝ) (sampleRate : ℕ) : ℕ :=
  jsNextPow2 (winSamplesOf windowSize sampleRate)

lemma jsNextPow2_eq_clog (n : ℕ) : jsNextPow2 n = 2 ^ Nat.clog 2 n := by
  unfold jsNextPow2
  rw [show (2:ℝ) = ((2:ℕ):ℝ) by norm_num]
  rw [Real.ceil_logb_natCast (by positivity), Int.clog_natCast]
  simp

/-- C10 (counterexample): at `windowSizeSeconds = 1/4` and
`sampleRate = 4` the floored sample count is 1 (so the claim's hypothesis
holds) but `winSize = 2^⌈log₂ 1⌉ = 1` is odd, so
`halfWinSize = winSize/2` is not an integer. -/
theorem c10_winsize_counterexample :
    winSamplesOf (1/4 : ℝ) 4 = 1 ∧ winSizeOf (1/4 : ℝ) 4 = 1 ∧
      ¬ (2 ∣ winSizeOf (1/4 : ℝ) 4) := by
  have h1 : winSamplesOf (1/4 : ℝ) 4 = 1 := by
    unfold winSamplesOf
    norm_num
  have h2 : winSizeOf (1/4 : ℝ) 4 = 1 := by
    unfold winSizeOf
    rw [h1, jsNextPow2_eq_clog]
    norm_num [Nat.clog_one_right]
  exact ⟨h1, h2, by rw [h2]; decide⟩

/-- C10 (amended): whenever the floored sample count
`⌊window_size_seconds · sample_rate⌋` is at least 2, the `winSize` that
`stretch` passes on equals `2^⌈log₂(samples)⌉`, is a power of two at
least the sample count, and is even, so `halfWinSize = winSize/2` is an
integer and the radix-2 FFT size precondition holds.  (At sample count 1
the power is `2^0 = 1`, which is odd, so the original claim fails.) -/
theorem c10_winsize_power_of_two_amended (windowSize : ℝ) (sampleRate : ℕ)
    (h2 : 2 ≤ winSamplesOf windowSize sampleRate) :
    winSizeOf windowSize sampleRate =
        2 ^ (⌈Real.logb 2 (winSamplesOf windowSize sampleRate : ℝ)⌉.toNat) ∧
      winSamplesOf windowSize sampleRate ≤ winSizeOf windowSize sampleRate ∧
      (∃ k, winSizeOf windowSize sampleRate = 2 ^ k) ∧
      2 ∣ winSizeOf windowSize sampleRate := by
  refine ⟨rfl, ?_, ?_, ?_⟩
  · unfold winSizeOf
    rw [jsNextPow2_eq_clog]
    exact Nat.le_pow_clog one_lt_two _
  · exact ⟨Nat.clog 2 (winSamplesOf windowSize sampleRate), by
      unfold winSizeOf; rw [jsNextPow2_eq_clog]⟩
  · unfold winSizeOf
    rw [jsNextPow2_eq_clog]
    have hk : 0 < Nat.clog 2 (winSamplesOf windowSize sampleRate) :=
      Nat.clog_pos one_lt_two (by omega)
    exact dvd_pow_self 2 (by omega)

theorem c10_winsize_power_of_two_amended_witness :
    2 ≤ winSamplesOf (1 : ℝ) 2 ∧
      (winSamplesOf (1 : ℝ) 2 ≤ winSizeOf (1 : ℝ) 2 ∧ 2 ∣ winSizeOf (1 : ℝ) 2) := by
  have hws : winSamplesOf (1 : ℝ) 2 = 2 := by
    unfold winSamplesOf
    norm_num
  have h := c10_winsize_power_of_two_amended (1 : ℝ) 2 (by rw [hws])
  exact ⟨by rw [hws], h.2.1, h.2.2.2⟩

/-- Multi-channel audio buffer: the shape data of a Web Audio
`AudioBuffer` (`sampleRate`, `numberOfChannels`, `length`,
`getChannelData`). -/
structure AudioBlock where
  sampleRate : ℕ
  numChannels : ℕ
  frameCount : ℕ
  data : ℕ → ℕ → ℝ

/-- Embedding of `createWindow` (`src/index.js` lines 73-82): the legacy
window `w[i] = (1 - counter²)^1.25` with `counter = -1 + i·2/(winSize-1)`
accumulated exactly. -/
noncomputable def createWindow (winSize : ℕ) : ℕ → ℝ :=
  fun i => (1 - ((-1) + i * (2 / ((winSize : ℝ) - 1))) ^ 2) ^ (1.25 : ℝ)

/-- Effect of the function returned by `makeRephaser` on a real block:
steps 1-5 run on the complex copy, then only the real part is copied back
into the first `winSize` entries. -/
noncomputable def rephaseArray (winSize : ℕ) (arr : ℕ → ℝ) (φ : ℕ → ℝ) : ℕ → ℝ :=
  fun i => if i < winSize then
    (rephaseOut winSize (fun j => ((arr j : ℝ) : ℂ)) φ i).re
  else arr i

/-- Loop-invariant parameters of `_stretchSingleThread`
(`src/index.js` lines 573-611). -/
structure STParams where
  numChannels : ℕ
  winSize : ℕ
  halfWin : ℕ
  outLen : ℕ
  inLen : ℕ
  win : ℕ → ℝ
  d : ℝ

/-- Mutable state of the `_stretchSingleThread` processing loop: the
input channels (only ever read), the output buffers, the work blocks
`blockIn` / `blockOut`, and the two positions. -/
structure STState where
  input : ℕ → ℕ → ℝ
  output : ℕ → ℕ → ℝ
  blockIn : ℕ → ℕ → ℝ
  blockOut : ℕ → ℕ → ℝ
  inputPos : ℝ
  outputPos : ℕ

/-- One iteration of the `while` loop of `_stretchSingleThread`
(`src/index.js` lines 613-662): fill `blockIn` from the input at
`⌊inputPos⌋`, window it, rephase each channel with that frame's random
phases, window again, overlap-add the first half plus the second half of
`blockOut` into the output (bounds-checked), save the block into
`blockOut`, and advance both positions. -/
noncomputable def stBody (P : STParams) (φ : ℕ → ℕ → ℝ) (s : STState) : STState :=
  let b1 : ℕ → ℕ → ℝ := fun ch i =>
    if ch < P.numChannels ∧ i < P.winSize then s.input ch (⌊s.inputPos⌋₊ + i)
    else s.blockIn ch i
  let b2 : ℕ → ℕ → ℝ := fun ch i =>
    if ch < P.numChannels ∧ i < P.winSize then b1 ch i * P.win i else b1 ch i
  let b3 : ℕ → ℕ → ℝ := fun ch i =>
    if ch < P.numChannels then rephaseArray P.winSize (b2 ch) (φ ch) i else b2 ch i
  let b4 : ℕ → ℕ → ℝ := fun ch i =>
    if ch < P.numChannels ∧ i < P.winSize then b3 ch i * P.win i else b3 ch i
  let out' : ℕ → ℕ → ℝ := fun ch pos =>
    if ch < P.numChannels ∧ s.outputPos ≤ pos ∧ pos < s.outputPos + P.halfWin ∧
        pos < P.outLen then
      s.output ch pos + b4 ch (pos - s.outputPos) +
        s.blockOut ch (P.halfWin + (pos - s.outputPos))
    else s.output ch pos
  let bOut' : ℕ → ℕ → ℝ := fun ch i =>
    if ch < P.numChannels ∧ i < P.winSize then b4 ch i else s.blockOut ch i
  { input := s.input, output := out', blockIn := b4, blockOut := bOut',
    inputPos := s.inputPos + P.d, outputPos := s.outputPos + P.halfWin }

/-- Embedding of the `while (inputPos + winSize <= audioBuffer.length)`
loop of `_stretchSingleThread`; `frame` counts the iterations (indexing
the stream of random phases).  The extra guard `0 < d` only makes the
recursion well-founded: with `d ≤ 0` the JS loop would never terminate,
and the claims all assume a positive stretch factor. -/
noncomputable def stLoop (P : STParams) (φ : ℕ → ℕ → ℕ → ℝ) (frame : ℕ) (s : STState) :
    STState :=
  if h : 0 < P.d ∧ s.inputPos + P.winSize ≤ (P.inLen : ℝ) then
    stLoop P φ (frame + 1) (stBody P (φ frame) s)
  else s
termination_by Nat.ceil (((P.inLen : ℝ) - s.inputPos + P.d) / P.d)
decreasing_by
  have hd := h.1
  have hy : 0 ≤ ((P.inLen : ℝ) - s.inputPos) / P.d := by
    have hle := h.2
    have hw : (0:ℝ) ≤ (P.winSize : ℝ) := Nat.cast_nonneg _
    apply div_nonneg _ (le_of_lt hd)
    linarith [hle, hw]
  have e1 : ((P.inLen : ℝ) - (stBody P (φ frame) s).inputPos + P.d) / P.d =
      ((P.inLen : ℝ) - s.inputPos) / P.d := by
    show ((P.inLen : ℝ) - (s.inputPos + P.d) + P.d) / P.d = _
    ring_nf
  have e2 : ((P.inLen : ℝ) - s.inputPos + P.d) / P.d =
      ((P.inLen : ℝ) - s.inputPos) / P.d + 1 := by
    field_simp
  rw [e1, e2, Nat.ceil_add_one hy]
  omega

/-- The running maximum `maxVal = max(maxVal, |data[i]|)` over the first
`len` samples, as computed by the normalization loops. -/
noncomputable def maxAbs (len : ℕ) (f : ℕ → ℝ) : ℝ :=
  (List.range len).foldl (fun m i => max m |f i|) 0

/-- Peak normalization of `_stretchSingleThread` / `_stretchParallel`
(`src/index.js` lines 664-677 and 557-567): if the peak is positive,
scale the first `len` samples by `0.95 / peak`. -/
noncomputable def normalize95 (len : ℕ) (f : ℕ → ℝ) : ℕ → ℝ :=
  if 0 < maxAbs len f then
    fun i => if i < len then f i * (0.95 / maxAbs len f) else f i
  else f

/-- Strict peak normalization `_normalizeInPlace`
(`src/paulstretch-fft.js` lines 264-279): scale by `1 / peak`. -/
noncomputable def normalizeInPlace (len : ℕ) (f : ℕ → ℝ) : ℕ → ℝ :=
  if 0 < maxAbs len f then
    fun i => if i < len then f i * (1 / maxAbs len f) else f i
  else f

/-- Derived loop parameters of `_stretchSingleThread`
(`src/index.js` lines 574-601): `winSize` the power-of-two window,
`halfWinSize = winSize/2`, `outputLength = ⌊length·stretchFactor⌋`,
`displacePos = halfWinSize/stretchFactor`. -/
noncomputable def stParamsOf (stretchFactor windowSize : ℝ) (input : AudioBlock) : STParams :=
  { numChannels := input.numChannels,
    winSize := winSizeOf windowSize input.sampleRate,
    halfWin := winSizeOf windowSize input.sampleRate / 2,
    outLen := ⌊(input.frameCount : ℝ) * stretchFactor⌋₊,
    inLen := input.frameCount,
    win := createWindow (winSizeOf windowSize input.sampleRate),
    d := ((winSizeOf windowSize input.sampleRate / 2 : ℕ) : ℝ) / stretchFactor }

/-- Initial loop state: zeroed output and work blocks, both positions at
0, the input channels untouched. -/
noncomputable def stInit (input : AudioBlock) : STState :=
  { input := input.data, output := fun _ _ => 0, blockIn := fun _ _ => 0,
    blockOut := fun _ _ => 0, inputPos := 0, outputPos := 0 }

/-- Embedding of `_stretchSingleThread` (`src/index.js` lines 573-680):
run the processing loop, then peak-normalize each channel; the output
buffer is created with the same channel count and sample rate as the
input and `⌊length·stretchFactor⌋` frames. -/
noncomputable def stretchSingleThread (stretchFactor windowSize : ℝ) (input : AudioBlock)
    (φ : ℕ → ℕ → ℕ → ℝ) : AudioBlock :=
  { sampleRate := input.sampleRate,
    numChannels := input.numChannels,
    frameCount := ⌊(input.frameCount : ℝ) * stretchFactor⌋₊,
    data := fun ch => normalize95 ⌊(input.frameCount : ℝ) * stretchFactor⌋₊
      ((stLoop (stParamsOf stretchFactor windowSize input) φ 0 (stInit input)).output ch) }

/-- Spectral pipeline of one frame in the worker (`processFrames`,
`src/index.js` lines 275-319 and `src/stretch-worker.js`): window the
input at `⌊pos⌋`, forward FFT, random phases, Hermitian mirror, inverse
FFT, window again.  The result is a fresh `Float32Array(winSize)`. -/
noncomputable def pstBlock (winSize : ℕ) (inputData win : ℕ → ℝ) (pos : ℝ)
    (φ : ℕ → ℝ) : ℕ → ℝ :=
  fun j => if j < winSize then
    (rephaseOut winSize (fun i => ((inputData (⌊pos⌋₊ + i) * win i : ℝ) : ℂ)) φ j).re * win j
  else 0

/-- Embedding of the worker loop of `processFrames`
(`src/index.js` lines 272-327): up to `numFrames` frames starting at the
real position `pos`, stopping early when `inputPos + winSize` exceeds the
input length; each processed frame is returned paired with its
`inputPos`. -/
noncomputable def processFramesList (inLen winSize : ℕ) (inputData win : ℕ → ℝ) (d : ℝ)
    (φ : ℕ → ℕ → ℝ) : ℕ → ℝ → List ((ℕ → ℝ) × ℝ)
  | 0, _ => []
  | m + 1, pos =>
    if (inLen : ℝ) < pos + winSize then []
    else (pstBlock winSize inputData win pos (φ 0), pos) ::
      processFramesList inLen winSize inputData win d (fun i b => φ (i + 1) b) m (pos + d)

/-- Chunk construction of `_stretchParallel` (`src/index.js` lines
466-484): starting from `frameIdx = 0`, emit `(frameIdx, numFrames)` with
`numFrames = min(idealChunkSize, totalFrames - frameIdx)` while
`frameIdx < totalFrames`, breaking when `numFrames ≤ 0`. -/
def buildChunks (total ideal : ℤ) (frameIdx : ℤ) : List (ℤ × ℤ) :=
  if _h : frameIdx < total then
    if _h2 : min ideal (total - frameIdx) ≤ 0 then
      []
    else (frameIdx, min ideal (total - frameIdx)) ::
      buildChunks total ideal (frameIdx + min ideal (total - frameIdx))
  else []
termination_by (total - frameIdx).toNat
decreasing_by omega

/-- All `(processed_block, input_position)` pairs produced for one channel
by the workers, in work-queue order: the channel's frame range is cut into
chunks (`totalFrames = ⌊(length - winSize)/displacePos⌋`,
`idealChunkSize = max(1, ⌊totalFrames/(workers·3)⌋)`) and each chunk is
processed by `processFrames` from `startFrame = frameIdx·displacePos`. -/
noncomputable def totalFramesOf (inLen winSize : ℕ) (d : ℝ) : ℤ :=
  ⌊((inLen : ℝ) - winSize) / d⌋

noncomputable def idealChunkOf (total : ℤ) (W : ℕ) : ℤ :=
  max 1 ⌊(total : ℝ) / ((W : ℝ) * 3)⌋

noncomputable def parallelChannelPairs (inLen winSize : ℕ) (inputData win : ℕ → ℝ) (d : ℝ)
    (W : ℕ) (φ : ℕ → ℕ → ℕ → ℝ) : List ((ℕ → ℝ) × ℝ) :=
  ((buildChunks (totalFramesOf inLen winSize d)
      (idealChunkOf (totalFramesOf inLen winSize d) W) 0).enum).flatMap
    (fun ci => processFramesList inLen winSize inputData win d (φ ci.1)
      ci.2.2.toNat ((ci.2.1 : ℝ) * d))

/-- State of the per-channel overlap-add loop of `_stretchParallel`
(`src/index.js` lines 541-555): the output channel, the rolling previous
block `blockOut`, and the output position. -/
structure OAState where
  out : ℕ → ℝ
  blockOut : ℕ → ℝ
  outputPos : ℕ

/-- One overlap-add step: add the first half of the current block plus the
second half of the previous block into the output (bounds-checked against
`outLen`), store the whole block, advance by `halfWin`. -/
noncomputable def oaStep (halfWin winSize outLen : ℕ) (s : OAState) (block : ℕ → ℝ) :
    OAState :=
  { out := fun pos =>
      if s.outputPos ≤ pos ∧ pos < s.outputPos + halfWin ∧ pos < outLen then
        s.out pos + block (pos - s.outputPos) + s.blockOut (halfWin + (pos - s.outputPos))
      else s.out pos,
    blockOut := fun i => if i < winSize then block i else s.blockOut i,
    outputPos := s.outputPos + halfWin }

/-- The comparison sort `allBlocks.sort((a, b) => a.inputPos - b.inputPos)`
(`src/index.js` line 539), modelled as a merge sort by ascending
`inputPos`. -/
noncomputable def sortPairs (pairs : List ((ℕ → ℝ) × ℝ)) : List ((ℕ → ℝ) × ℝ) :=
  pairs.mergeSort (fun a b => decide (a.2 ≤ b.2))

/-- Per-channel reassembly of `_stretchParallel`: sort the returned pairs
by `inputPos` ascending, then overlap-add the blocks in that order into a
zeroed channel. -/
noncomputable def reassembleChannel (halfWin winSize outLen : ℕ)
    (pairs : List ((ℕ → ℝ) × ℝ)) : ℕ → ℝ :=
  ((sortPairs pairs).foldl (fun s pb => oaStep halfWin winSize outLen s pb.1)
    { out := fun _ => 0, blockOut := fun _ => 0, outputPos := 0 }).out

/-- Embedding of `_stretchParallel` (`src/index.js` lines 437-571): the
output buffer is created with the input's channel count and sample rate
and `⌊length·stretchFactor⌋` frames; each channel is the overlap-add of
its workers' sorted blocks, peak-normalized.  `φ ch chunk frame bin` is
the oracle for the workers' random phases. -/
noncomputable def stretchParallel (stretchFactor windowSize : ℝ) (W : ℕ) (input : AudioBlock)
    (φ : ℕ → ℕ → ℕ → ℕ → ℝ) : AudioBlock :=
  { sampleRate := input.sampleRate,
    numChannels := input.numChannels,
    frameCount := ⌊(input.frameCount : ℝ) * stretchFactor⌋₊,
    data := fun ch => normalize95 ⌊(input.frameCount : ℝ) * stretchFactor⌋₊
      (reassembleChannel (winSizeOf windowSize input.sampleRate / 2)
        (winSizeOf windowSize input.sampleRate)
        ⌊(input.frameCount : ℝ) * stretchFactor⌋₊
        (parallelChannelPairs input.frameCount (winSizeOf windowSize input.sampleRate)
          (input.data ch) (createWindow (winSizeOf windowSize input.sampleRate))
          (((winSizeOf windowSize input.sampleRate / 2 : ℕ) : ℝ) / stretchFactor)
          W (φ ch))) }

lemma maxAbs_succ (len : ℕ) (f : ℕ → ℝ) :
    maxAbs (len + 1) f = max (maxAbs len f) |f len| := by
  unfold maxAbs
  rw [List.range_succ, List.foldl_append, List.foldl_cons, List.foldl_nil]

lemma maxAbs_nonneg (len : ℕ) (f : ℕ → ℝ) : 0 ≤ maxAbs len f := by
  induction len with
  | zero => exact le_refl 0
  | succ len ih =>
    rw [maxAbs_succ]
    exact le_trans ih (le_max_left _ _)

lemma le_maxAbs (len : ℕ) (f : ℕ → ℝ) : ∀ i, i < len → |f i| ≤ maxAbs len f := by
  induction len with
  | zero => intro i hi; omega
  | succ len ih =>
    intro i hi
    rw [maxAbs_succ]
    rcases Nat.lt_or_ge i len with hl | hg
    · exact le_trans (ih i hl) (le_max_left _ _)
    · have : i = len := by omega
      subst this
      exact le_max_right _ _

lemma maxAbs_zero_fun (len : ℕ) : maxAbs len (fun _ => (0:ℝ)) = 0 := by
  induction len with
  | zero => rfl
  | succ len ih =>
    rw [maxAbs_succ, ih]
    simp

/-- After `normalize95` every sample below `len` has magnitude at
most 1 (indeed at most 0.95 when the peak is positive). -/
lemma normalize95_le_one (len : ℕ) (f : ℕ → ℝ) (i : ℕ) (hi : i < len) :
    |normalize95 len f i| ≤ 1 := by
  unfold normalize95
  by_cases hM : 0 < maxAbs len f
  · rw [if_pos hM]
    simp only [if_pos hi]
    rw [abs_mul]
    have h1 : |f i| ≤ maxAbs len f := le_maxAbs len f i hi
    have h2 : |0.95 / maxAbs len f| = 0.95 / maxAbs len f :=
      abs_of_pos (by positivity)
    rw [h2]
    have h3 : |f i| * (0.95 / maxAbs len f) ≤ maxAbs len f * (0.95 / maxAbs len f) :=
      mul_le_mul_of_nonneg_right h1 (by positivity)
    have h4 : maxAbs len f * (0.95 / maxAbs len f) = 0.95 := by
      field_simp
    linarith
  · rw [if_neg hM]
    have h1 : |f i| ≤ maxAbs len f := le_maxAbs len f i hi
    have h2 : maxAbs len f ≤ 0 := le_of_not_lt hM
    have h3 : 0 ≤ |f i| := abs_nonneg _
    linarith

/-- After `_normalizeInPlace` every sample below `len` has magnitude at
most 1. -/
lemma normalizeInPlace_le_one (len : ℕ) (f : ℕ → ℝ) (i : ℕ) (hi : i < len) :
    |normalizeInPlace len f i| ≤ 1 := by
  unfold normalizeInPlace
  by_cases hM : 0 < maxAbs len f
  · rw [if_pos hM]
    simp only [if_pos hi]
    rw [abs_mul]
    have h1 : |f i| ≤ maxAbs len f := le_maxAbs len f i hi
    have h2 : |1 / maxAbs len f| = 1 / maxAbs len f := abs_of_pos (by positivity)
    rw [h2]
    have h3 : |f i| * (1 / maxAbs len f) ≤ maxAbs len f * (1 / maxAbs len f) :=
      mul_le_mul_of_nonneg_right h1 (by positivity)
    have h4 : maxAbs len f * (1 / maxAbs len f) = 1 := by
      field_simp
    linarith
  · rw [if_neg hM]
    have h1 : |f i| ≤ maxAbs len f := le_maxAbs len f i hi
    have h2 : maxAbs len f ≤ 0 := le_of_not_lt hM
    have h3 : 0 ≤ |f i| := abs_nonneg _
    linarith

/-- C4: for every valid AudioBlock and positive finite stretch factor,
the block returned by `stretch` has exactly
`⌊input_frame_count · stretch_factor⌋` frames, the input's channel count
and the input's sample rate, on both the single-threaded and the parallel
path. -/
theorem c4_output_shape (stretchFactor windowSize : ℝ) (_hf : 0 < stretchFactor)
    (input : AudioBlock) (φ1 : ℕ → ℕ → ℕ → ℝ) (W : ℕ) (φ2 : ℕ → ℕ → ℕ → ℕ → ℝ) :
    ((stretchSingleThread stretchFactor windowSize input φ1).frameCount =
          ⌊(input.frameCount : ℝ) * stretchFactor⌋₊ ∧
        (stretchSingleThread stretchFactor windowSize input φ1).numChannels =
          input.numChannels ∧
        (stretchSingleThread stretchFactor windowSize input φ1).sampleRate =
          input.sampleRate) ∧
      ((stretchParallel stretchFactor windowSize W input φ2).frameCount =
          ⌊(input.frameCount : ℝ) * stretchFactor⌋₊ ∧
        (stretchParallel stretchFactor windowSize W input φ2).numChannels =
          input.numChannels ∧
        (stretchParallel stretchFactor windowSize W input φ2).sampleRate =
          input.sampleRate) :=
  ⟨⟨rfl, rfl, rfl⟩, ⟨rfl, rfl, rfl⟩⟩

theorem c4_output_shape_witness :
    (0:ℝ) < 2 ∧
      (stretchSingleThread 2 0.25 ⟨44100, 1, 100, fun _ _ => 0⟩ (fun _ _ _ => 0)).frameCount =
        ⌊((100:ℕ) : ℝ) * (2:ℝ)⌋₊ :=
  ⟨by norm_num,
    ((c4_output_shape 2 0.25 (by norm_num) ⟨44100, 1, 100, fun _ _ => 0⟩
      (fun _ _ _ => 0) 4 (fun _ _ _ _ => 0)).1).1⟩

/-- C5: on both paths every sample of every output channel of `stretch`
satisfies `|sample| ≤ 1` after the final per-channel peak normalization
(scale `0.95/M` in `src/index.js`, `1/M` in `_normalizeInPlace` of
`src/paulstretch-fft.js`; a channel with zero peak is left unchanged,
all-zero). -/
theorem c5_normalized_output_peak_le_one (stretchFactor windowSize : ℝ)
    (input : AudioBlock) (φ1 : ℕ → ℕ → ℕ → ℝ) (W : ℕ) (φ2 : ℕ → ℕ → ℕ → ℕ → ℝ)
    (ch i : ℕ) (hi : i < ⌊(input.frameCount : ℝ) * stretchFactor⌋₊) :
    |(stretchSingleThread stretchFactor windowSize input φ1).data ch i| ≤ 1 ∧
      |(stretchParallel stretchFactor windowSize W input φ2).data ch i| ≤ 1 ∧
      ∀ g : ℕ → ℝ, |normalizeInPlace ⌊(input.frameCount : ℝ) * stretchFactor⌋₊ g i| ≤ 1 :=
  ⟨normalize95_le_one _ _ i hi, normalize95_le_one _ _ i hi,
    fun g => normalizeInPlace_le_one _ g i hi⟩

theorem c5_normalized_output_peak_le_one_witness :
    (0:ℕ) < ⌊((100:ℕ) : ℝ) * (2:ℝ)⌋₊ ∧
      |(stretchSingleThread 2 0.25 ⟨44100, 1, 100, fun _ _ => 0⟩
        (fun _ _ _ => 0)).data 0 0| ≤ 1 :=
  ⟨by norm_num,
    (c5_normalized_output_peak_le_one 2 0.25 ⟨44100, 1, 100, fun _ _ => 0⟩
      (fun _ _ _ => 0) 4 (fun _ _ _ _ => 0) 0 0 (by norm_num)).1⟩

/-- C9: the single-threaded processing loop never writes the input
channels: the `input` component of the loop state is preserved by every
iteration (in the embedding of the parallel path the workers and the
reassembler receive the input data purely as a read-only argument). -/
theorem c9_input_channels_not_modified (P : STParams) (φ : ℕ → ℕ → ℕ → ℝ)
    (frame : ℕ) (s : STState) :
    (stLoop P φ frame s).input = s.input := by
  rw [stLoop]
  split
  · rw [c9_input_channels_not_modified P φ (frame + 1) (stBody P (φ frame) s)]
    rfl
  · rfl
termination_by Nat.ceil (((P.inLen : ℝ) - s.inputPos + P.d) / P.d)
decreasing_by
  rename_i h
  have hd := h.1
  have hy : 0 ≤ ((P.inLen : ℝ) - s.inputPos) / P.d := by
    have hle := h.2
    have hw : (0:ℝ) ≤ (P.winSize : ℝ) := Nat.cast_nonneg _
    apply div_nonneg _ (le_of_lt hd)
    linarith [hle, hw]
  have e1 : ((P.inLen : ℝ) - (stBody P (φ frame) s).inputPos + P.d) / P.d =
      ((P.inLen : ℝ) - s.inputPos) / P.d := by
    show ((P.inLen : ℝ) - (s.inputPos + P.d) + P.d) / P.d = _
    ring_nf
  have e2 : ((P.inLen : ℝ) - s.inputPos + P.d) / P.d =
      ((P.inLen : ℝ) - s.inputPos) / P.d + 1 := by
    field_simp
  rw [e1, e2, Nat.ceil_add_one hy]
  omega

lemma buildChunks_nil (total ideal : ℤ) (htot : total ≤ 0) :
    buildChunks total ideal 0 = [] := by
  rw [buildChunks, dif_neg (by omega)]

lemma parallelChannelPairs_nil (inLen winSize : ℕ) (inputData win : ℕ → ℝ) (d : ℝ)
    (W : ℕ) (φ : ℕ → ℕ → ℕ → ℝ) (hd : 0 ≤ d) (hshort : inLen < winSize) :
    parallelChannelPairs inLen winSize inputData win d W φ = [] := by
  unfold parallelChannelPairs
  have htot : totalFramesOf inLen winSize d ≤ 0 := by
    unfold totalFramesOf
    have hnum : ((inLen : ℝ) - winSize) ≤ 0 := by
      have : (inLen : ℝ) ≤ winSize := by exact_mod_cast le_of_lt hshort
      linarith
    have hq : ((inLen : ℝ) - winSize) / d ≤ 0 := by
      rcases eq_or_lt_of_le hd with he | hlt
      · rw [← he, div_zero]
      · exact div_nonpos_iff.2 (Or.inr ⟨hnum, le_of_lt hlt⟩)
    calc (⌊((inLen : ℝ) - winSize) / d⌋ : ℤ) ≤ ⌊(0:ℝ)⌋ := Int.floor_mono hq
      _ = 0 := Int.floor_zero
  rw [buildChunks_nil _ _ htot]
  rfl

lemma reassembleChannel_nil (halfWin winSize outLen : ℕ) :
    reassembleChannel halfWin winSize outLen [] = fun _ => 0 := by
  unfold reassembleChannel sortPairs
  rw [List.mergeSort_nil, List.foldl_nil]

lemma normalize95_zero_fun (len : ℕ) : normalize95 len (fun _ => 0) = fun _ => 0 := by
  unfold normalize95
  rw [maxAbs_zero_fun, if_neg (lt_irrefl 0)]

/-- C6: for every input shorter than the derived window/FFT size (with a
positive stretch factor), `stretch` produces an output of
`⌊input_frame_count · stretch_factor⌋` frames in which every sample of
every channel is 0: the processing loop never runs (single-thread) and
the chunk queue is empty (parallel), and zero-peak normalization leaves
the zero buffers unchanged. -/
theorem c6_short_input_zero_output (stretchFactor windowSize : ℝ)
    (hf : 0 < stretchFactor) (input : AudioBlock) (φ1 : ℕ → ℕ → ℕ → ℝ)
    (W : ℕ) (φ2 : ℕ → ℕ → ℕ → ℕ → ℝ)
    (hshort : input.frameCount < winSizeOf windowSize input.sampleRate) :
    ((stretchSingleThread stretchFactor windowSize input φ1).frameCount =
        ⌊(input.frameCount : ℝ) * stretchFactor⌋₊ ∧
      ∀ ch i, (stretchSingleThread stretchFactor windowSize input φ1).data ch i = 0) ∧
    ((stretchParallel stretchFactor windowSize W input φ2).frameCount =
        ⌊(input.frameCount : ℝ) * stretchFactor⌋₊ ∧
      ∀ ch i, (stretchParallel stretchFactor windowSize W input φ2).data ch i = 0) := by
  constructor
  · refine ⟨rfl, ?_⟩
    intro ch i
    have hstep : stLoop (stParamsOf stretchFactor windowSize input) φ1 0 (stInit input) =
        stInit input := by
      rw [stLoop]
      have hguard : ¬ (0 < (stParamsOf stretchFactor windowSize input).d ∧
          (stInit input).inputPos +
            ((stParamsOf stretchFactor windowSize input).winSize : ℝ) ≤
            ((stParamsOf stretchFactor windowSize input).inLen : ℝ)) := by
        rintro ⟨-, hle⟩
        have h0 : (stInit input).inputPos = 0 := rfl
        have hwin : (stParamsOf stretchFactor windowSize input).winSize =
            winSizeOf windowSize input.sampleRate := rfl
        have hinl : (stParamsOf stretchFactor windowSize input).inLen =
            input.frameCount := rfl
        rw [h0, hwin, hinl, zero_add, Nat.cast_le] at hle
        omega
      rw [dif_neg hguard]
    show normalize95 ⌊(input.frameCount : ℝ) * stretchFactor⌋₊
      ((stLoop (stParamsOf stretchFactor windowSize input) φ1 0 (stInit input)).output ch) i = 0
    rw [hstep]
    have hz : (stInit input).output ch = fun _ => 0 := rfl
    rw [hz, normalize95_zero_fun]
  · refine ⟨rfl, ?_⟩
    intro ch i
    have hd : 0 ≤ ((winSizeOf windowSize input.sampleRate / 2 : ℕ) : ℝ) / stretchFactor := by
      positivity
    show normalize95 ⌊(input.frameCount : ℝ) * stretchFactor⌋₊
      (reassembleChannel (winSizeOf windowSize input.sampleRate / 2)
        (winSizeOf windowSize input.sampleRate)
        ⌊(input.frameCount : ℝ) * stretchFactor⌋₊
        (parallelChannelPairs input.frameCount (winSizeOf windowSize input.sampleRate)
          (input.data ch) (createWindow (winSizeOf windowSize input.sampleRate))
          (((winSizeOf windowSize input.sampleRate / 2 : ℕ) : ℝ) / stretchFactor)
          W (φ2 ch))) i = 0
    rw [parallelChannelPairs_nil _ _ _ _ _ _ _ hd hshort, reassembleChannel_nil,
      normalize95_zero_fun]

theorem c6_short_input_zero_output_witness :
    (0:ℝ) < 4 ∧ (500:ℕ) < winSizeOf (0.25 : ℝ) 44100 ∧
      (stretchSingleThread 4 0.25 ⟨44100, 1, 500, fun _ _ => 1⟩
        (fun _ _ _ => 0)).data 0 0 = 0 := by
  have hws : winSamplesOf (0.25 : ℝ) 44100 = 11025 := by
    unfold winSamplesOf
    norm_num
  have hsize : winSizeOf (0.25 : ℝ) 44100 = 16384 := by
    unfold winSizeOf
    rw [hws, jsNextPow2_eq_clog]
    have hclog : Nat.clog 2 11025 = 14 := by
      have h1 : Nat.clog 2 11025 ≤ 14 := (Nat.le_pow_iff_clog_le one_lt_two).1 (by norm_num)
      have h2 : 13 < Nat.clog 2 11025 := (Nat.pow_lt_iff_lt_clog one_lt_two).1 (by norm_num)
      omega
    rw [hclog]
    norm_num
  refine ⟨by norm_num, by rw [hsize]; norm_num, ?_⟩
  exact ((c6_short_input_zero_output 4 0.25 (by norm_num) ⟨44100, 1, 500, fun _ _ => 1⟩
    (fun _ _ _ => 0) 4 (fun _ _ _ _ => 0) (by rw [hsize]; norm_num)).1).2 0 0

/-- Two sorted lists that are permutations of each other and have
pairwise-distinct keys are equal. -/
lemma eq_of_perm_sorted_nodup_keys {α : Type} (key : α → ℝ) :
    ∀ (l₁ l₂ : List α), l₁.Perm l₂ →
      l₁.Pairwise (fun a b => key a ≤ key b) →
      l₂.Pairwise (fun a b => key a ≤ key b) →
      (l₁.map key).Nodup → l₁ = l₂ := by
  intro l₁
  induction l₁ with
  | nil =>
    intro l₂ hperm _ _ _
    exact (List.Perm.eq_nil hperm.symm).symm
  | cons a t₁ ih =>
    intro l₂ hperm hs1 hs2 hnd
    cases l₂ with
    | nil => exact absurd (List.Perm.eq_nil hperm) (by simp)
    | cons b t₂ =>
      have hab : a = b := by
        by_contra hne
        have haml : a ∈ b :: t₂ := hperm.mem_iff.1 (List.mem_cons_self a t₁)
        have hat2 : a ∈ t₂ := by
          rcases List.mem_cons.1 haml with h | h
          · exact absurd h hne
          · exact h
        have hbml : b ∈ a :: t₁ := hperm.symm.mem_iff.1 (List.mem_cons_self b t₂)
        have hbt1 : b ∈ t₁ := by
          rcases List.mem_cons.1 hbml with h | h
          · exact absurd h.symm hne
          · exact h
        have h1 : key a ≤ key b := (List.pairwise_cons.1 hs1).1 b hbt1
        have h2 : key b ≤ key a := (List.pairwise_cons.1 hs2).1 a hat2
        have hkeq : key a = key b := le_antisymm h1 h2
        rw [List.map_cons] at hnd
        have hmem : key b ∈ t₁.map key := List.mem_map_of_mem key hbt1
        rw [← hkeq] at hmem
        exact (List.nodup_cons.1 hnd).1 hmem
      subst hab
      have hperm' : t₁.Perm t₂ := hperm.cons_inv
      have hnd' : (t₁.map key).Nodup := by
        rw [List.map_cons] at hnd
        exact (List.nodup_cons.1 hnd).2
      rw [ih t₂ hperm' (List.pairwise_cons.1 hs1).2 (List.pairwise_cons.1 hs2).2 hnd']

lemma sortPairs_perm (l : List ((ℕ → ℝ) × ℝ)) : (sortPairs l).Perm l :=
  List.mergeSort_perm l _

lemma sortPairs_sorted (l : List ((ℕ → ℝ) × ℝ)) :
    (sortPairs l).Pairwise (fun a b => a.2 ≤ b.2) := by
  have h := @List.sorted_mergeSort ((ℕ → ℝ) × ℝ)
    (fun a b => decide (a.2 ≤ b.2))
    (fun a b c hab hbc => by
      simp only [decide_eq_true_eq] at hab hbc ⊢
      exact le_trans hab hbc)
    (fun a b => by
      simpa using le_total a.2 b.2)
    l
  exact h.imp (fun hab => by simpa using hab)

/-- C7: per-channel reassembly sorts the `(block, input_position)` pairs
by ascending position before overlap-add; with pairwise-distinct
positions the resulting channel is therefore identical for every arrival
order (permutation) of the pairs. -/
theorem c7_reassembly_arrival_order_independent (halfWin winSize outLen : ℕ)
    (l₁ l₂ : List ((ℕ → ℝ) × ℝ)) (hperm : l₁.Perm l₂)
    (hnd : (l₁.map Prod.snd).Nodup) :
    reassembleChannel halfWin winSize outLen l₁ =
      reassembleChannel halfWin winSize outLen l₂ := by
  have hsorteq : sortPairs l₁ = sortPairs l₂ := by
    apply eq_of_perm_sorted_nodup_keys Prod.snd
    · exact (sortPairs_perm l₁).trans (hperm.trans (sortPairs_perm l₂).symm)
    · exact sortPairs_sorted l₁
    · exact sortPairs_sorted l₂
    · exact (((sortPairs_perm l₁).map Prod.snd).nodup_iff).2 hnd
  unfold reassembleChannel
  rw [hsorteq]

theorem c7_reassembly_arrival_order_independent_witness :
    ([((fun _ => 1 : ℕ → ℝ), (0:ℝ)), ((fun _ => 2 : ℕ → ℝ), (1:ℝ))].Perm
        [((fun _ => 2 : ℕ → ℝ), (1:ℝ)), ((fun _ => 1 : ℕ → ℝ), (0:ℝ))]) ∧
      (([((fun _ => 1 : ℕ → ℝ), (0:ℝ)), ((fun _ => 2 : ℕ → ℝ), (1:ℝ))]).map Prod.snd).Nodup ∧
      reassembleChannel 1 2 4
          [((fun _ => 1 : ℕ → ℝ), (0:ℝ)), ((fun _ => 2 : ℕ → ℝ), (1:ℝ))] =
        reassembleChannel 1 2 4
          [((fun _ => 2 : ℕ → ℝ), (1:ℝ)), ((fun _ => 1 : ℕ → ℝ), (0:ℝ))] := by
  have hperm : ([((fun _ => 1 : ℕ → ℝ), (0:ℝ)), ((fun _ => 2 : ℕ → ℝ), (1:ℝ))].Perm
      [((fun _ => 2 : ℕ → ℝ), (1:ℝ)), ((fun _ => 1 : ℕ → ℝ), (0:ℝ))]) :=
    List.Perm.swap _ _ _
  have hnd : (([((fun _ => 1 : ℕ → ℝ), (0:ℝ)), ((fun _ => 2 : ℕ → ℝ), (1:ℝ))]).map
      Prod.snd).Nodup := by
    simp
  exact ⟨hperm, hnd,
    c7_reassembly_arrival_order_independent 1 2 4 _ _ hperm hnd⟩

/-- Tagged error thrown by the library (`PaulStretchError` with a
message). -/
structure PSError where
  message : String
deriving DecidableEq

/-- The argument passed to `stretch`: either a nullish value, a value
that is not an `AudioBuffer` instance, or an actual buffer.  The guard
`if (!audioBuffer || !(audioBuffer instanceof AudioBuffer))` rejects the
first two. -/
inductive JSAudioArg where
  | nullish : JSAudioArg
  | notAudioBuffer : JSAudioArg
  | buffer (b : AudioBlock) : JSAudioArg

/-- Semantics of `Promise.all` over the worker tasks, with
`_handleWorkerMessage` rejecting a task when the worker reports
`success: false` (`src/index.js` lines 368-380): any failed outcome makes
the whole gather fail with that worker's message. -/
def collectWorker : List (Except String Unit) → Except String Unit
  | [] => Except.ok ()
  | Except.error e :: _ => Except.error e
  | Except.ok _ :: rest => collectWorker rest

/-- Embedding of the `stretch` entry point's control flow
(`src/index.js` lines 416-435 with `_stretchParallel`): reject an invalid
argument with the tagged error `"Invalid audio buffer"`, propagate the
first worker failure as a tagged error, and otherwise return the
assembled output block.  An `Except.error` result carries no
`AudioBlock`, so no partial output escapes on failure. -/
noncomputable def stretchChecked (stretchFactor windowSize : ℝ) (W : ℕ)
    (φ : ℕ → ℕ → ℕ → ℕ → ℝ) (arg : JSAudioArg)
    (workerOutcomes : List (Except String Unit)) : Except PSError AudioBlock :=
  match arg with
  | JSAudioArg.buffer b =>
    match collectWorker workerOutcomes with
    | Except.error e => Except.error { message := e }
    | Except.ok _ => Except.ok (stretchParallel stretchFactor windowSize W b φ)
  | _ => Except.error { message := "Invalid audio buffer" }

lemma collectWorker_error_iff (rs : List (Except String Unit)) :
    (∃ e, collectWorker rs = Except.error e) ↔ ∃ msg, Except.error msg ∈ rs := by
  induction rs with
  | nil =>
    constructor
    · rintro ⟨e, he⟩
      cases he
    · rintro ⟨msg, hm⟩
      cases hm
  | cons r rest ih =>
    cases r with
    | error e =>
      constructor
      · rintro ⟨e', -⟩
        exact ⟨e, List.mem_cons_self _ _⟩
      · rintro -
        exact ⟨e, rfl⟩
    | ok u =>
      constructor
      · rintro ⟨e, he⟩
        obtain ⟨msg, hm⟩ := ih.1 ⟨e, he⟩
        exact ⟨msg, List.mem_cons_of_mem _ hm⟩
      · rintro ⟨msg, hm⟩
        rcases List.mem_cons.1 hm with h | h
        · cases h
        · exact ih.2 ⟨msg, h⟩

/-- C8: `stretch` fails with a tagged error exactly when its argument is
invalid (nullish or not an `AudioBuffer`, surfaced with the message
`"Invalid audio buffer"`) or some worker reports a failure; an invalid
argument always yields exactly that tagged error, and a failing call
never also returns an output block. -/
theorem c8_stretch_error_iff (stretchFactor windowSize : ℝ) (W : ℕ)
    (φ : ℕ → ℕ → ℕ → ℕ → ℝ) (arg : JSAudioArg)
    (rs : List (Except String Unit)) :
    ((∃ e, stretchChecked stretchFactor windowSize W φ arg rs = Except.error e) ↔
      (arg = JSAudioArg.nullish ∨ arg = JSAudioArg.notAudioBuffer ∨
        ∃ msg, Except.error msg ∈ rs)) ∧
    ((arg = JSAudioArg.nullish ∨ arg = JSAudioArg.notAudioBuffer) →
      stretchChecked stretchFactor windowSize W φ arg rs =
        Except.error { message := "Invalid audio buffer" }) ∧
    (∀ e out, stretchChecked stretchFactor windowSize W φ arg rs = Except.error e →
      stretchChecked stretchFactor windowSize W φ arg rs ≠ Except.ok out) := by
  refine ⟨?_, ?_, ?_⟩
  · cases arg with
    | nullish =>
      constructor
      · intro _
        exact Or.inl rfl
      · intro _
        exact ⟨{ message := "Invalid audio buffer" }, rfl⟩
    | notAudioBuffer =>
      constructor
      · intro _
        exact Or.inr (Or.inl rfl)
      · intro _
        exact ⟨{ message := "Invalid audio buffer" }, rfl⟩
    | buffer b =>
      constructor
      · rintro ⟨e, he⟩
        refine Or.inr (Or.inr ?_)
        rw [← collectWorker_error_iff]
        unfold stretchChecked at he
        rcases hcw : collectWorker rs with e' | u
        · exact ⟨e', rfl⟩
        · rw [hcw] at he
          cases he
      · rintro (h | h | ⟨msg, hm⟩)
        · cases h
        · cases h
        · obtain ⟨e, he⟩ := (collectWorker_error_iff rs).2 ⟨msg, hm⟩
          refine ⟨{ message := e }, ?_⟩
          unfold stretchChecked
          rw [he]
  · rintro (rfl | rfl) <;> rfl
  · intro e out he
    rw [he]
    intro hcontra
    cases hcontra

theorem c8_stretch_error_iff_witness :
    stretchChecked 8 0.25 4 (fun _ _ _ _ => 0) JSAudioArg.nullish [] =
      Except.error { message := "Invalid audio buffer" } :=
  (c8_stretch_error_iff 8 0.25 4 (fun _ _ _ _ => 0) JSAudioArg.nullish []).2.1 (Or.inl rfl)
